import Mathlib

set_option maxHeartbeats 1000000

set_option maxRecDepth 2000

/-!
Verification development for the lua-measure statistical engine.

The C sources are shallowly embedded in Lean: machine doubles are modelled
by exact rationals (or reals where transcendental library functions occur),
uint64_t values by natural numbers with explicit reduction modulo 2^64 where
the C arithmetic can wrap, and fallible functions by Option or Except.
-/

def U64_MOD : ℕ := 2 ^ 64

def UINT64_MAX : ℕ := 2 ^ 64 - 1

/-- One recorded observation, mirroring measure_samples_data_t in
measure_samples.h. -/
structure measure_samples_data_t where
  time_ns : ℕ
  before_kb : ℕ
  after_kb : ℕ
  allocated_kb : ℕ
deriving DecidableEq

/-- The sample accumulator, mirroring measure_samples_t in measure_samples.h.
The Lua-interpreter bookkeeping fields (saved GC state, registry reference)
are outside the statistical core and are omitted; data holds the first
count entries of the backing array. -/
structure measure_samples_t where
  capacity : ℕ
  count : ℕ
  base_kb : ℕ
  cl : ℚ
  rciw : ℚ
  sum : ℕ
  min : ℕ
  max : ℕ
  M2 : ℚ
  mean : ℚ
  sum_allocated_kb : ℕ
  gc_step : ℤ
  data : List measure_samples_data_t
  name : String
deriving DecidableEq

/-- Creation of a samples object, from new_measure_samples in samples.c:
the whole struct is memset to zero (in particular min starts at 0, not at
the UINT64_MAX sentinel), the name is truncated to 255 characters and a
negative gc_step is normalized to -1. -/
def new_measure_samples (name : String) (capacity : ℕ) (gc_step : ℤ)
    (cl rciw : ℚ) : measure_samples_t :=
  { capacity := capacity
    count := 0
    base_kb := 0
    cl := cl
    rciw := rciw
    sum := 0
    min := 0
    max := 0
    M2 := 0
    mean := 0
    sum_allocated_kb := 0
    gc_step := if gc_step < 0 then -1 else gc_step
    data := []
    name := (name.toList.take 255).asString }

/-- measure_samples_clear from measure_samples.h: resets count and all
aggregates, sets the min sentinel to UINT64_MAX, zeroes the data array and
base_kb, and keeps the capacity. -/
def measure_samples_clear (s : measure_samples_t) : measure_samples_t :=
  { s with
    count := 0
    sum := 0
    min := UINT64_MAX
    max := 0
    M2 := 0
    mean := 0
    sum_allocated_kb := 0
    data := []
    base_kb := 0 }

/-- measure_samples_preprocess (measure_samples.h) records the baseline
memory usage reported by the garbage collector; the GC itself is an external
collaborator, so the reported kilobyte count is a parameter here. -/
def measure_samples_preprocess (s : measure_samples_t) (gc_count_kb : ℕ) :
    measure_samples_t :=
  { s with base_kb := gc_count_kb }

/-- measure_samples_update_sample_ex from measure_samples.h: append one
sample. Fails (returns none, errno ENOSPC in C) when the array is full.
The uint64_t running sum wraps modulo 2^64; mean and M2 follow the Welford
update, with the count incremented before the mean update. -/
def measure_samples_update_sample_ex (s : measure_samples_t)
    (elapsed before_kb after_kb : ℕ) : Option measure_samples_t :=
  if s.capacity ≤ s.count then none else
  let allocated_kb := if before_kb < after_kb then after_kb - before_kb else 0
  let count1 := s.count + 1
  let mean1 : ℚ :=
    if count1 < 2 then (elapsed : ℚ)
    else s.mean + ((elapsed : ℚ) - s.mean) / (count1 : ℚ)
  let M2_1 : ℚ :=
    if count1 < 2 then 0
    else s.M2 + ((elapsed : ℚ) - s.mean) * ((elapsed : ℚ) - mean1)
  some { s with
    count := count1
    sum := (s.sum + elapsed) % U64_MOD
    min := if elapsed < s.min then elapsed else s.min
    max := if s.max < elapsed then elapsed else s.max
    mean := mean1
    M2 := M2_1
    sum_allocated_kb := s.sum_allocated_kb + allocated_kb
    data := s.data ++ [⟨elapsed, before_kb, after_kb, allocated_kb⟩] }

/-- Appending a list of (time_ns, before_kb, after_kb) triples one by one.
As in the C callers, a failed append leaves the state unchanged. -/
def appendAll (s : measure_samples_t) (l : List (ℕ × ℕ × ℕ)) :
    measure_samples_t :=
  l.foldl (fun acc x =>
    (measure_samples_update_sample_ex acc x.1 x.2.1 x.2.2).getD acc) s

/-- The recorded (time_ns, before_kb, after_kb) triples of a samples object. -/
def triplesOf (s : measure_samples_t) : List (ℕ × ℕ × ℕ) :=
  s.data.map (fun d => (d.time_ns, d.before_kb, d.after_kb))

/-- The recorded time_ns values of a samples object. -/
def timesOf (s : measure_samples_t) : List ℕ :=
  s.data.map (·.time_ns)

/-- copy_samples from samples.c: block-copies the source data into the
destination and combines the aggregates with the Chan parallel formulas.
An empty source leaves the destination unchanged; overflowing the
destination capacity is an error (luaL_error in C). -/
def copy_samples (dst src : measure_samples_t) :
    Except String measure_samples_t :=
  if src.count = 0 then .ok dst
  else if dst.capacity < dst.count + src.count then
    .error "failed to merge samples: total capacity calculated is too small"
  else
    let combined :=
      if dst.count = 0 then { dst with mean := src.mean, M2 := src.M2 }
      else
        let delta : ℚ := src.mean - dst.mean
        let n1 := dst.count
        let n2 := src.count
        let n := n1 + n2
        { dst with
          mean := dst.mean + delta * (n2 : ℚ) / (n : ℚ)
          M2 := dst.M2 + src.M2 +
            delta * delta * (n1 : ℚ) * (n2 : ℚ) / (n : ℚ) }
    .ok { combined with
      sum := (combined.sum + src.sum) % U64_MOD
      min := if src.min < combined.min then src.min else combined.min
      max := if combined.max < src.max then src.max else combined.max
      count := combined.count + src.count
      data := combined.data ++ src.data }

/-- merge_lua from samples.c: validates the input list, creates a fresh
samples object whose capacity is the sum of the input capacities (metadata
from the first input), sets its min to the UINT64_MAX sentinel, folds
copy_samples over the inputs, and normalizes min back to 0 when no data
was merged. -/
def merge_lua (name : String) (sets : List measure_samples_t) :
    Except String measure_samples_t :=
  match sets with
  | [] => .error "table of samples cannot be empty"
  | s :: _ =>
    let total_capacity := (sets.map (·.capacity)).sum
    let merged0 :=
      { new_measure_samples name total_capacity s.gc_step s.cl s.rciw with
        min := UINT64_MAX }
    match sets.foldlM (fun acc item => copy_samples acc item) merged0 with
    | .error e => .error e
    | .ok m => .ok (if m.count = 0 then { m with min := 0 } else m)

/-! Reference aggregate functions: the exact values that the running
aggregates of a consistent accumulator take, expressed as functions of the
recorded time_ns list. -/

/-- Minimum of a list folded from the UINT64_MAX sentinel, exactly as the
per-append min update computes it starting from a cleared state. -/
def minOf (l : List ℕ) : ℕ :=
  l.foldl (fun m t => if t < m then t else m) UINT64_MAX

/-- Maximum of a list folded from 0, exactly as the per-append max update
computes it. -/
def maxOf (l : List ℕ) : ℕ :=
  l.foldl (fun m t => if m < t then t else m) 0

/-- Sum of a list reduced modulo 2^64, the value the wrapping uint64_t sum
holds. -/
def sumOf (l : List ℕ) : ℕ :=
  l.sum % U64_MOD

/-- Arithmetic mean over the rationals (0 for the empty list, since x / 0 = 0
in the rationals). -/
def meanOf (l : List ℕ) : ℚ :=
  ((l.map (fun t : ℕ => (t : ℚ))).sum) / (l.length : ℚ)

/-- Sum of squared deviations about the mean, the exact value of M2. -/
def m2Of (l : List ℕ) : ℚ :=
  ((l.map (fun t : ℕ => ((t : ℚ) - meanOf l) ^ 2)).sum)

/-- The unbiased sample variance of a list of time values: sum of squared
deviations about the mean divided by (length - 1). -/
def sample_variance_spec (l : List ℕ) : ℚ :=
  m2Of l / ((l.length - 1 : ℕ) : ℚ)

/-- Aggregate consistency: the running aggregates equal their reference
values computed from the recorded data, and the count fits the capacity.
This holds for every state reachable from a cleared accumulator. -/
def Consistent (s : measure_samples_t) : Prop :=
  s.count = s.data.length ∧
  s.count ≤ s.capacity ∧
  s.sum = sumOf (timesOf s) ∧
  s.min = minOf (timesOf s) ∧
  s.max = maxOf (timesOf s) ∧
  s.mean = meanOf (timesOf s) ∧
  s.M2 = m2Of (timesOf s)

instance (s : measure_samples_t) : Decidable (Consistent s) := by
  unfold Consistent; infer_instance

/-- Weak aggregate consistency: as Consistent, but min and max are only
required to bound the data. States created by new_measure_samples (whose
min is memset to 0 rather than the UINT64_MAX sentinel) satisfy this
weaker form. -/
def WeakConsistent (s : measure_samples_t) : Prop :=
  s.count = s.data.length ∧
  s.count ≤ s.capacity ∧
  s.sum = sumOf (timesOf s) ∧
  (∀ d ∈ s.data, s.min ≤ d.time_ns ∧ d.time_ns ≤ s.max) ∧
  s.mean = meanOf (timesOf s) ∧
  s.M2 = m2Of (timesOf s)

/-- States reachable through the public lifecycle: creation, clear, append
and merge. -/
inductive Reachable : measure_samples_t → Prop
  | new (name : String) (capacity : ℕ) (gc_step : ℤ) (cl rciw : ℚ) :
      Reachable (new_measure_samples name capacity gc_step cl rciw)
  | clear {s : measure_samples_t} :
      Reachable s → Reachable (measure_samples_clear s)
  | preprocess {s : measure_samples_t} (gc_count_kb : ℕ) :
      Reachable s → Reachable (measure_samples_preprocess s gc_count_kb)
  | append {s s' : measure_samples_t} {e b a : ℕ} :
      Reachable s → measure_samples_update_sample_ex s e b a = some s' →
      Reachable s'
  | merge {sets : List measure_samples_t} {name : String}
      {m : measure_samples_t} :
      (∀ x ∈ sets, Reachable x) → merge_lua name sets = .ok m →
      Reachable m

/-! The descriptive-statistics layer (src/stats/common.h). These functions
read the first count entries of the data array; they are modelled directly
on that list of time_ns values. qsort over a total order on integers is
modelled by insertion sort, which produces the same (unique) sorted
permutation. -/

def STATS_EPSILON : ℚ := 1 / 10 ^ 15

def MIN_SAMPLES_OUTLIER_DETECTION : ℕ := 4

def MIN_SAMPLES_MAD_OUTLIER : ℕ := 3

/-- copy_and_sort_time_data from stats/common.h: copy the time values and
sort them ascending. -/
def copy_and_sort_time_data (times : List ℕ) : List ℕ :=
  List.insertionSort (· ≤ ·) times

/-- stats_mean from stats/common.h: sums the time values with an explicit
uint64_t overflow guard (NaN, here none, on overflow), then divides by the
count; NaN for an empty set. The guard accumulator is modelled by the
recursion below. -/
def stats_mean_sum : List ℕ → ℕ → Option ℕ
  | [], acc => some acc
  | v :: rest, acc =>
      if UINT64_MAX - v < acc then none else stats_mean_sum rest (acc + v)

/-- stats_mean from stats/common.h (see stats_mean_sum for the guarded
summation). -/
def stats_mean (times : List ℕ) : Option ℚ :=
  if times.length = 0 then none
  else (stats_mean_sum times 0).map
    (fun sum : ℕ => (sum : ℚ) / (times.length : ℚ))

/-- stats_percentile_from_sorted from stats/common.h: linear-interpolation
percentile on sorted data, NaN (none) for empty data or p outside [0,100].
The C index computation (size_t)floor / (size_t)ceil is Int.floor/Int.ceil
followed by toNat (the index is nonnegative in range). -/
def stats_percentile_from_sorted (sorted : List ℕ) (p : ℚ) : Option ℚ :=
  if sorted.length = 0 ∨ p < 0 ∨ 100 < p then none else
  let count := sorted.length
  let index : ℚ := (p / 100) * ((count - 1 : ℕ) : ℚ)
  let lower : ℕ := (Int.floor index).toNat
  let upper : ℕ := (Int.ceil index).toNat
  if lower = upper then some ((sorted.getD lower 0 : ℕ) : ℚ)
  else
    let weight : ℚ := index - (lower : ℚ)
    some ((sorted.getD lower 0 : ℚ) * (1 - weight) +
          (sorted.getD upper 0 : ℚ) * weight)

/-- stats_min from stats/common.h: 0 for empty data, otherwise the running
minimum starting from the first element. -/
def stats_min (times : List ℕ) : ℕ :=
  match times with
  | [] => 0
  | x :: rest => rest.foldl (fun m v => if v < m then v else m) x

/-- stats_max from stats/common.h. -/
def stats_max (times : List ℕ) : ℕ :=
  match times with
  | [] => 0
  | x :: rest => rest.foldl (fun m v => if m < v then v else m) x

/-- stats_percentile from stats/common.h: validates p, sorts a copy of the
time data and delegates to stats_percentile_from_sorted. -/
def stats_percentile (times : List ℕ) (p : ℚ) : Option ℚ :=
  if ¬ (0 ≤ p ∧ p ≤ 100) then none
  else stats_percentile_from_sorted (copy_and_sort_time_data times) p

/-- stats_mad from stats/common.h: median of the absolute deviations from
the median; NaN (none) when the median is unavailable (empty data). -/
def stats_mad (times : List ℕ) : Option ℚ :=
  match stats_percentile times 50 with
  | none => none
  | some median =>
    let deviations := times.map (fun t : ℕ => |(t : ℚ) - median|)
    let sorted := List.insertionSort (· ≤ ·) deviations
    let n := times.length
    if n % 2 = 0 then
      some ((sorted.getD (n / 2 - 1) 0 + sorted.getD (n / 2) 0) / 2)
    else
      some (sorted.getD (n / 2) 0)

/-- stats_variance from stats/common.h: two-pass sum of squared deviations
about stats_mean with Kahan compensation, divided by (count - 1); 0 for a
single sample, NaN (none) for an empty set or when the mean overflowed. -/
def stats_variance (times : List ℕ) : Option ℚ :=
  if times.length = 1 then some 0
  else if times.length < 2 then none
  else
    match stats_mean times with
    | none => none
    | some mean =>
      let kahan := times.foldl (fun (acc : ℚ × ℚ) (v : ℕ) =>
        let diff := (v : ℚ) - mean
        let sq_diff := diff * diff
        let y := sq_diff - acc.2
        let t := acc.1 + y
        (t, (t - acc.1) - y)) (0, 0)
      some (kahan.1 / ((times.length - 1 : ℕ) : ℚ))

/-! Outlier detection (src/stats/outliers.c). -/

def OUTLIER_TUKEY_MULTIPLIER : ℚ := 3 / 2

def OUTLIER_MAD_DEFAULT : ℚ := 5 / 2

inductive outlier_method_t
  | tukey
  | mad
deriving DecidableEq

inductive outlier_error_t
  | insufficient_samples
  | invalid_statistics
deriving DecidableEq

/-- The per-index flag test of the Tukey branch of stats_outliers: the value
falls outside [q1 - 1.5 iqr, q3 + 1.5 iqr]. In the C code q1 and q3 are
computed once before the loop; the stats_percentile calls are pure, so
reading them through the flag predicate is the same computation. -/
def tukey_flagged (times : List ℕ) (i : ℕ) : Bool :=
  let q1 := (stats_percentile times 25).getD 0
  let q3 := (stats_percentile times 75).getD 0
  let iqr := q3 - q1
  let lower_bound := q1 - OUTLIER_TUKEY_MULTIPLIER * iqr
  let upper_bound := q3 + OUTLIER_TUKEY_MULTIPLIER * iqr
  decide ((times.getD i 0 : ℚ) < lower_bound) ||
    decide (upper_bound < (times.getD i 0 : ℚ))

/-- The per-index flag test of stats_outliers_mad_impl:
the absolute deviation from the median divided by the MAD exceeds the
threshold. -/
def mad_flagged (times : List ℕ) (threshold : ℚ) (i : ℕ) : Bool :=
  decide (threshold <
    |(times.getD i 0 : ℚ) - (stats_percentile times 50).getD 0| /
      (stats_mad times).getD 0)

/-- The flag predicate each method applies, with the default MAD threshold
used by stats_outliers. -/
def outlier_flagged (times : List ℕ) (method : outlier_method_t) (i : ℕ) :
    Bool :=
  match method with
  | .tukey => tukey_flagged times i
  | .mad => mad_flagged times OUTLIER_MAD_DEFAULT i

/-- stats_outliers_mad_impl from stats/outliers.c: requires at least
MIN_SAMPLES_MAD_OUTLIER samples and a MAD above STATS_EPSILON; an invalid
(nonpositive) threshold falls back to the 2.5 default; collects the indices
(0-based) whose deviation ratio exceeds the threshold. -/
def stats_outliers_mad_impl (times : List ℕ) (threshold : ℚ) :
    Except outlier_error_t (List ℕ) :=
  if times.length < MIN_SAMPLES_MAD_OUTLIER then .error .insufficient_samples
  else
    match stats_percentile times 50, stats_mad times with
    | some _, some mad =>
      if mad ≤ STATS_EPSILON then .error .invalid_statistics
      else
        let threshold := if 0 < threshold then threshold else OUTLIER_MAD_DEFAULT
        .ok ((List.range times.length).filter (mad_flagged times threshold))
    | _, _ => .error .invalid_statistics

/-- stats_outliers from stats/outliers.c: rejects fewer than
MIN_SAMPLES_OUTLIER_DETECTION (= 4) samples for either method, then
dispatches to the Tukey scan or to the MAD implementation with the default
threshold. -/
def stats_outliers (times : List ℕ) (method : outlier_method_t) :
    Except outlier_error_t (List ℕ) :=
  if times.length < MIN_SAMPLES_OUTLIER_DETECTION then
    .error .insufficient_samples
  else
    match method with
    | .tukey =>
      match stats_percentile times 25, stats_percentile times 75 with
      | some _, some _ =>
        .ok ((List.range times.length).filter (tukey_flagged times))
      | _, _ => .error .invalid_statistics
    | .mad => stats_outliers_mad_impl times OUTLIER_MAD_DEFAULT

/-- outliers_lua from stats/outliers.c: runs stats_outliers and converts the
0-based indices to the 1-based indices returned to Lua. -/
def outliers_lua (times : List ℕ) (method : outlier_method_t) :
    Except outlier_error_t (List ℕ) :=
  (stats_outliers times method).map (List.map (· + 1))

/-! Holm correction (src/posthoc/welcht.c, apply_holm_correction). The
correction operates on the comparison records sorted ascending by raw
p-value; only the p-values matter here, so it is modelled on the sorted
list of rational p-values. -/

/-- One step of the Holm loop: adjusted = p (m - i), raised to the previous
adjusted value when i is greater than 0 (monotonicity), capped at 1. -/
def holm_step (m i : ℕ) (prev p : ℚ) : ℚ :=
  let adjusted := p * ((m : ℚ) - (i : ℚ))
  let adjusted := if 0 < i ∧ adjusted < prev then prev else adjusted
  if 1 < adjusted then 1 else adjusted

/-- The Holm loop over the sorted p-values, carrying the loop index and the
previously produced adjusted value. -/
def holm_go (m : ℕ) : ℕ → ℚ → List ℚ → List ℚ
  | _, _, [] => []
  | i, prev, p :: rest =>
    let a := holm_step m i prev p
    a :: holm_go m (i + 1) a rest

/-- apply_holm_correction from posthoc/welcht.c: sort the p-values
ascending (qsort with compare_pairwise_by_pvalue) and run the Holm loop
with m equal to the number of comparisons. -/
def apply_holm_correction (ps : List ℚ) : List ℚ :=
  holm_go ps.length 0 0 (List.insertionSort (· ≤ ·) ps)

/-! Serialization (samples.c, dump_lua and restore_lua). lua_pushinteger
receives uint64_t / size_t values; the implicit conversion to the signed
64-bit lua_Integer wraps, which Int.bmod at 2^64 captures. -/

/-- The value lua_pushinteger stores for an unsigned 64-bit quantity:
two-complement wrap into [-2^63, 2^63). -/
def lua_pushinteger_u64 (v : ℕ) : ℤ :=
  Int.bmod (v : ℤ) (2 ^ 64)

/-- The record built by dump_lua: four data arrays plus the metadata
fields. The name field is omitted (none) when the name is empty. -/
structure dump_record where
  name : Option String
  capacity : ℤ
  count : ℤ
  gc_step : ℤ
  cl : ℚ
  rciw : ℚ
  sum : ℤ
  min : ℤ
  max : ℤ
  M2 : ℚ
  mean : ℚ
  base_kb : ℤ
  time_ns : List ℤ
  before_kb : List ℤ
  after_kb : List ℤ
  allocated_kb : List ℤ
deriving DecidableEq

/-- dump_lua from samples.c. -/
def dump_lua (s : measure_samples_t) : dump_record :=
  { name := if s.name = "" then none else some s.name
    capacity := lua_pushinteger_u64 s.capacity
    count := lua_pushinteger_u64 s.count
    gc_step := s.gc_step
    cl := s.cl
    rciw := s.rciw
    sum := lua_pushinteger_u64 s.sum
    min := lua_pushinteger_u64 s.min
    max := lua_pushinteger_u64 s.max
    M2 := s.M2
    mean := s.mean
    base_kb := lua_pushinteger_u64 s.base_kb
    time_ns := s.data.map (fun d => lua_pushinteger_u64 d.time_ns)
    before_kb := s.data.map (fun d => lua_pushinteger_u64 d.before_kb)
    after_kb := s.data.map (fun d => lua_pushinteger_u64 d.after_kb)
    allocated_kb := s.data.map (fun d => lua_pushinteger_u64 d.allocated_kb) }

/-- restore_lua from samples.c: validates capacity, count, gc_step, cl,
rciw and base_kb, creates a fresh samples object, checks that the three
input arrays (allocated_kb is not read back) have length count and hold
nonnegative integers, sets the min sentinel, and replays every triple
through measure_samples_update_sample_ex. The C code validates each array
entry just before replaying it and aborts on the first bad one; since an
error discards the partially built object, this equals validating all
entries first and then replaying. -/
def restore_lua (rec : dump_record) : Except String measure_samples_t :=
  if rec.capacity ≤ 0 then .error "invalid field capacity: must be > 0" else
  let capacity := rec.capacity.toNat
  if rec.count < 0 ∨ capacity < rec.count.toNat then
    .error "invalid field count: must be >= 0 and <= capacity" else
  let count := rec.count.toNat
  if rec.cl ≤ 0 ∨ 100 < rec.cl then
    .error "invalid field cl: must be in range 0 < cl <= 100" else
  if rec.rciw ≤ 0 ∨ 100 < rec.rciw then
    .error "invalid field rciw: must be in range 0 < rciw <= 100" else
  if rec.base_kb ≤ 0 then .error "invalid field base_kb: must be > 0" else
  let s0 :=
    { new_measure_samples (rec.name.getD "") capacity rec.gc_step rec.cl
        rec.rciw with
      count := 0
      base_kb := rec.base_kb.toNat }
  if rec.time_ns.length ≠ count then
    .error "field time_ns array size does not match count" else
  if rec.before_kb.length ≠ count then
    .error "field before_kb array size does not match count" else
  if rec.after_kb.length ≠ count then
    .error "field after_kb array size does not match count" else
  if (rec.time_ns.any (fun v => v < 0)) then
    .error "field time_ns entries must be integers >= 0" else
  if (rec.before_kb.any (fun v => v < 0)) then
    .error "field before_kb entries must be integers >= 0" else
  if (rec.after_kb.any (fun v => v < 0)) then
    .error "field after_kb entries must be integers >= 0" else
  .ok (appendAll { s0 with min := UINT64_MAX }
    (List.zipWith (fun t (ba : ℤ × ℤ) => (t.toNat, ba.1.toNat, ba.2.toNat))
      rec.time_ns (List.zip rec.before_kb rec.after_kb)))


/-! Scott-Knott ESD clustering (src/posthoc/skesd.c). The arithmetic runs
on doubles including a square root, modelled over the reals; comparisons on
reals are classical, so these definitions are noncomputable. -/

noncomputable section

open scoped Classical

def COHEN_D_MEDIUM : ℝ := 1 / 2

/-- Cluster summary handed to the clustering, mirroring skesd_cluster_t:
the 0-based original id, the sample count, and the mean and variance of the
group. -/
structure skesd_cluster_t where
  id : ℕ
  count : ℕ
  mean : ℝ
  variance : ℝ

/-- Statistics triple, mirroring statistics_result_t. -/
structure statistics_result_t where
  mean : ℝ
  variance : ℝ
  count : ℕ

/-- calc_cohen_d from posthoc/skesd.c: absolute standardized mean
difference with the (n-1)-weighted pooled variance; 0 when the pooled
standard deviation is 0. The size_t subtractions are truncated natural
subtractions as in C. -/
def calc_cohen_d (mean1 var1 : ℝ) (n1 : ℕ) (mean2 var2 : ℝ) (n2 : ℕ) : ℝ :=
  let combined_variance :=
    (((n1 - 1 : ℕ) : ℝ) * var1 + ((n2 - 1 : ℕ) : ℝ) * var2) /
      ((n1 + n2 - 2 : ℕ) : ℝ)
  let combined_std := Real.sqrt combined_variance
  if combined_std = 0 then 0 else |mean1 - mean2| / combined_std

/-- The clusters with index in [start, stop), as the C loops over
clusters[start .. stop) read them. -/
def cluster_seg (clusters : List skesd_cluster_t) (start stop : ℕ) :
    List skesd_cluster_t :=
  (clusters.drop start).take (stop - start)

/-- calc_between_clusters_ss from posthoc/skesd.c. -/
def calc_between_clusters_ss (clusters : List skesd_cluster_t)
    (start stop split : ℕ) : ℝ :=
  if stop ≤ start ∨ split ≤ start ∨ stop ≤ split then 0 else
  let left := cluster_seg clusters start split
  let right := cluster_seg clusters split stop
  let left_sum := (left.map (fun c => c.mean * (c.count : ℝ))).sum
  let left_count : ℕ := (left.map (·.count)).sum
  let right_sum := (right.map (fun c => c.mean * (c.count : ℝ))).sum
  let right_count : ℕ := (right.map (·.count)).sum
  if left_count = 0 ∨ right_count = 0 then 0 else
  let left_mean := left_sum / (left_count : ℝ)
  let right_mean := right_sum / (right_count : ℝ)
  let overall_mean :=
    (left_sum + right_sum) / ((left_count + right_count : ℕ) : ℝ)
  (left_count : ℝ) * (left_mean - overall_mean) * (left_mean - overall_mean) +
    (right_count : ℝ) * (right_mean - overall_mean) *
      (right_mean - overall_mean)

/-- find_optimal_partition from posthoc/skesd.c: scan all split points in
(start, stop), keeping the first split whose between-groups sum of squares
strictly exceeds every earlier one; best_split starts at start + 1 and
max_ss at 0. -/
def find_optimal_partition (clusters : List skesd_cluster_t)
    (start stop : ℕ) : ℕ :=
  if stop - start ≤ 1 then start else
  ((List.range' (start + 1) (stop - start - 1)).foldl
    (fun (acc : ℕ × ℝ) split =>
      let ss := calc_between_clusters_ss clusters start stop split
      if acc.2 < ss then (split, ss) else acc)
    (start + 1, 0)).1

/-- calc_combined_stats from posthoc/skesd.c (the range form of
calc_cluster_stats_flexible, assignments = NULL): pooled mean and variance
of the clusters in [start, stop), variance clamped below at 0; the all-zero
result when the pooled count is 0. -/
def calc_combined_stats (clusters : List skesd_cluster_t)
    (start stop : ℕ) : statistics_result_t :=
  let seg := cluster_seg clusters start stop
  let sum := (seg.map (fun c => c.mean * (c.count : ℝ))).sum
  let sum_sq := (seg.map (fun c =>
    c.variance * ((c.count - 1 : ℕ) : ℝ) +
      c.mean * c.mean * (c.count : ℝ))).sum
  let count : ℕ := (seg.map (·.count)).sum
  if count = 0 then ⟨0, 0, 0⟩ else
  let mean := sum / (count : ℝ)
  let variance := (sum_sq - sum * sum / (count : ℝ)) / ((count - 1 : ℕ) : ℝ)
  ⟨mean, if variance < 0 then 0 else variance, count⟩

/-- should_merge_partitions from posthoc/skesd.c: merge when either side is
empty or the pooled Cohen effect size between the two sides is below the
threshold. -/
def should_merge_partitions (clusters : List skesd_cluster_t)
    (start split stop : ℕ) (threshold : ℝ) : Prop :=
  let left_stats := calc_combined_stats clusters start split
  let right_stats := calc_combined_stats clusters split stop
  left_stats.count = 0 ∨ right_stats.count = 0 ∨
    calc_cohen_d left_stats.mean left_stats.variance left_stats.count
      right_stats.mean right_stats.variance right_stats.count < threshold

/-- The assignment loops of scott_knott_esd_recursive: write the current
cluster id into assignments at position clusters[i].id for every i in
[start, stop). -/
def assign_range (clusters : List skesd_cluster_t) (start stop : ℕ)
    (assignments : List ℤ) (id : ℤ) : List ℤ :=
  (List.range' start (stop - start)).foldl
    (fun a i =>
      match clusters.get? i with
      | none => a
      | some c => a.set c.id id) assignments

/-- scott_knott_esd_recursive from posthoc/skesd.c: ranges of at most one
cluster get a fresh id; otherwise find the optimal split, merge the whole
range under one id when the effect size is negligible, else recurse left
then right. Returns the updated assignments and the next cluster id. -/
def scott_knott_esd_recursive (clusters : List skesd_cluster_t)
    (start stop : ℕ) (assignments : List ℤ) (current_cluster_id : ℤ)
    (effect_threshold : ℝ) : List ℤ × ℤ :=
  if stop - start ≤ 1 then
    (assign_range clusters start stop assignments current_cluster_id,
     current_cluster_id + 1)
  else
    let split := find_optimal_partition clusters start stop
    if should_merge_partitions clusters start split stop effect_threshold then
      (assign_range clusters start stop assignments current_cluster_id,
       current_cluster_id + 1)
    else
      let left := scott_knott_esd_recursive clusters start split assignments
        current_cluster_id effect_threshold
      scott_knott_esd_recursive clusters split stop left.1 left.2
        effect_threshold
termination_by stop - start
decreasing_by
  · have h2 : ¬ (stop - start ≤ 1) := by assumption
    have hss : start + 2 ≤ stop := by omega
    have hb : start < find_optimal_partition clusters start stop ∧
        find_optimal_partition clusters start stop < stop := by
      unfold find_optimal_partition
      rw [if_neg h2]
      have key : ∀ (l : List ℕ) (acc : ℕ × ℝ), start < acc.1 → acc.1 < stop →
          (∀ x ∈ l, start < x ∧ x < stop) →
          start < (l.foldl
            (fun (acc : ℕ × ℝ) split =>
              let ss := calc_between_clusters_ss clusters start stop split
              if acc.2 < ss then (split, ss) else acc) acc).1 ∧
          (l.foldl
            (fun (acc : ℕ × ℝ) split =>
              let ss := calc_between_clusters_ss clusters start stop split
              if acc.2 < ss then (split, ss) else acc) acc).1 < stop := by
        intro l
        induction l with
        | nil => intro acc h1 hlt _; exact ⟨h1, hlt⟩
        | cons x xs ih =>
          intro acc h1 hlt hall
          simp only [List.foldl_cons]
          by_cases hc : acc.2 < calc_between_clusters_ss clusters start stop x
          · simp only [hc, if_pos]
            exact ih _ (hall x (by simp)).1 (hall x (by simp)).2
              (fun y hy => hall y (by simp [hy]))
          · simp only [hc, if_neg, not_false_iff]
            exact ih _ h1 hlt (fun y hy => hall y (by simp [hy]))
      refine key _ _ (by omega) (by omega) ?_
      intro x hx
      rw [List.mem_range'] at hx
      omega
    omega
  · have h2 : ¬ (stop - start ≤ 1) := by assumption
    have hss : start + 2 ≤ stop := by omega
    have hb : start < find_optimal_partition clusters start stop ∧
        find_optimal_partition clusters start stop < stop := by
      unfold find_optimal_partition
      rw [if_neg h2]
      have key : ∀ (l : List ℕ) (acc : ℕ × ℝ), start < acc.1 → acc.1 < stop →
          (∀ x ∈ l, start < x ∧ x < stop) →
          start < (l.foldl
            (fun (acc : ℕ × ℝ) split =>
              let ss := calc_between_clusters_ss clusters start stop split
              if acc.2 < ss then (split, ss) else acc) acc).1 ∧
          (l.foldl
            (fun (acc : ℕ × ℝ) split =>
              let ss := calc_between_clusters_ss clusters start stop split
              if acc.2 < ss then (split, ss) else acc) acc).1 < stop := by
        intro l
        induction l with
        | nil => intro acc h1 hlt _; exact ⟨h1, hlt⟩
        | cons x xs ih =>
          intro acc h1 hlt hall
          simp only [List.foldl_cons]
          by_cases hc : acc.2 < calc_between_clusters_ss clusters start stop x
          · simp only [hc, if_pos]
            exact ih _ (hall x (by simp)).1 (hall x (by simp)).2
              (fun y hy => hall y (by simp [hy]))
          · simp only [hc, if_neg, not_false_iff]
            exact ih _ h1 hlt (fun y hy => hall y (by simp [hy]))
      refine key _ _ (by omega) (by omega) ?_
      intro x hx
      rw [List.mem_range'] at hx
      omega
    omega

end

/-! The t-distribution machinery of src/posthoc/welcht.c, modelled over the
reals. -/

noncomputable section

open scoped Classical

def FPMIN_THRESHOLD : ℝ := 1e-300

def BETA_CONVERGENCE_EPS : ℝ := 1e-16

def BETA_MAX_ITERATIONS : ℕ := 500

/-- The Bernoulli correction coefficients B_n / (n n!) of
log_gamma_stirling. -/
def BERNOULLI_COEFFS : List ℚ :=
  [1/12, -1/360, 1/1260, -1/1680, 1/1188, -691/360360, 1/156,
   -3617/122400, 43867/244188, -174611/125400]

/-- The shift loop of log_gamma_stirling: while x < 15, subtract log x from
the correction and increase x by 1. Terminates because x increases by 1
each round. -/
def log_gamma_shift (x correction : ℝ) : ℝ × ℝ :=
  if x < 15 then log_gamma_shift (x + 1) (correction - Real.log x)
  else (x, correction)
termination_by Nat.ceil ((15 : ℝ) - x)
decreasing_by
  have h0 : (0 : ℝ) < 15 - x := by
    linarith [show x < 15 by assumption]
  have h1 : 1 ≤ Nat.ceil ((15 : ℝ) - x) := by
    rw [Nat.one_le_ceil_iff]; exact h0
  have h2 : Nat.ceil ((15 : ℝ) - (x + 1)) ≤ Nat.ceil ((15 : ℝ) - x) - 1 := by
    rw [Nat.ceil_le]
    have := Nat.le_ceil ((15 : ℝ) - x)
    push_cast [h1]
    linarith
  omega

/-- log_gamma_stirling from posthoc/welcht.c: shift x into the accurate
range, apply the Stirling formula and the 10-term Bernoulli correction
series, then add back the accumulated correction. -/
def log_gamma_stirling (x : ℝ) : ℝ :=
  let shifted := log_gamma_shift x 0
  let x' := shifted.1
  let correction := shifted.2
  let result := (x' - 0.5) * Real.log x' - x' +
    0.91893853320467274178032973640562
  let x_inv := 1 / x'
  let x_inv2 := x_inv * x_inv
  let folded := BERNOULLI_COEFFS.foldl
    (fun (acc : ℝ × ℝ) (c : ℚ) => (acc.1 + (c : ℝ) * acc.2, acc.2 * x_inv2))
    (result, x_inv)
  folded.1 + correction

/-- log_gamma from posthoc/welcht.c. -/
def log_gamma (x : ℝ) : ℝ :=
  log_gamma_stirling x

/-- The underflow clamp of betacf (the ensure_minimum_value macro). -/
def ensure_minimum_value (v : ℝ) : ℝ :=
  if |v| < FPMIN_THRESHOLD then
    (if v < 0 then -FPMIN_THRESHOLD else FPMIN_THRESHOLD)
  else v

/-- One even-odd double step of the Lentz continued fraction in betacf,
returning the new (c, d, h) together with the convergence increment del. -/
def betacf_iter (a b x : ℝ) (m : ℕ) (c d h : ℝ) : ℝ × ℝ × ℝ × ℝ :=
  let qab := a + b
  let qap := a + 1
  let qam := a - 1
  let m2 : ℝ := 2 * (m : ℝ)
  let aa := (m : ℝ) * (b - (m : ℝ)) * x / ((qam + m2) * (a + m2))
  let d1 := ensure_minimum_value (1 + aa * d)
  let c1 := ensure_minimum_value (1 + aa / c)
  let d2 := 1 / d1
  let h1 := h * d2 * c1
  let aa2 := -(a + (m : ℝ)) * (qab + (m : ℝ)) * x / ((a + m2) * (qap + m2))
  let d3 := ensure_minimum_value (1 + aa2 * d2)
  let c2 := ensure_minimum_value (1 + aa2 / c1)
  let d4 := 1 / d3
  let del := d4 * c2
  (c2, d4, h1 * del, del)

/-- The iteration loop of betacf: run up to the remaining fuel, stopping
early when the increment is within the convergence epsilon. -/
def betacf_go (a b x : ℝ) : ℕ → ℕ → ℝ → ℝ → ℝ → ℝ
  | 0, _, _, _, h => h
  | fuel + 1, m, c, d, h =>
    let step := betacf_iter a b x m c d h
    if |step.2.2.2 - 1| ≤ BETA_CONVERGENCE_EPS then step.2.2.1
    else betacf_go a b x fuel (m + 1) step.1 step.2.1 step.2.2.1

/-- betacf from posthoc/welcht.c: the Lentz continued-fraction evaluation
of the incomplete beta function, at most BETA_MAX_ITERATIONS iterations. -/
def betacf (a b x : ℝ) : ℝ :=
  let qab := a + b
  let qap := a + 1
  let d0 := ensure_minimum_value (1 - qab * x / qap)
  let d1 := 1 / d0
  betacf_go a b x BETA_MAX_ITERATIONS 1 1 d1 d1

/-- betai from posthoc/welcht.c: the regularized incomplete beta function;
-1 for x outside [0,1], exact at the endpoints, and otherwise the
continued-fraction form chosen for stability. -/
def betai (a b x : ℝ) : ℝ :=
  if x < 0 ∨ 1 < x then -1
  else if x = 0 then 0
  else if x = 1 then 1
  else
    let log_bt := log_gamma (a + b) - log_gamma a - log_gamma b +
      a * Real.log x + b * Real.log (1 - x)
    if x < (a + 1) / (a + b + 2) then
      Real.exp log_bt * betacf a b x / a
    else
      1 - Real.exp log_bt * betacf b a (1 - x) / b

/-- The C99 erf function used by the large-df branch of student_t_cdf,
defined by its integral representation. -/
def erf_c99 (x : ℝ) : ℝ :=
  2 / Real.sqrt Real.pi * ∫ t in (0:ℝ)..x, Real.exp (-(t ^ 2))

/-- student_t_cdf from posthoc/welcht.c. The reals carry no NaN or
infinity, so of the isfinite guard only the df <= 0 test remains; then the
saturation regime for very large absolute t, the Cauchy closed form near
df = 1, the normal approximation for df > 1000, and the incomplete-beta
path with the stability-driven choice of x. -/
def student_t_cdf (t df : ℝ) : ℝ :=
  if df ≤ 0 then (if t < 0 then 0 else 1)
  else if 100 < |t| then (if t < 0 then 0 else 1)
  else if |df - 1| < 1e-15 then 0.5 + Real.arctan t / Real.pi
  else if 1000 < df then 0.5 * (1 + erf_c99 (t / Real.sqrt 2))
  else
    let t_squared := t * t
    let x := if t_squared < df then t_squared / (df + t_squared)
             else 1 - df / (df + t_squared)
    let p_beta := betai 0.5 (df / 2) x
    if 0 ≤ t then 0.5 + 0.5 * p_beta else 0.5 - 0.5 * p_beta

end

/-! Remaining auxiliary definitions used by the statements and proofs. -/

/-- The standard median of a list of time values: the middle element of the
sorted list for odd length, the average of the two middle elements for even
length. This is the specification-side definition the percentile claim
compares against. -/
def median_spec (times : List ℕ) : ℚ :=
  let s := List.insertionSort (· ≤ ·) times
  if times.length % 2 = 1 then (s.getD (times.length / 2) 0 : ℚ)
  else ((s.getD (times.length / 2 - 1) 0 : ℚ) +
        (s.getD (times.length / 2) 0 : ℚ)) / 2

/-- The data entry an append of the triple (t, b, a) records: allocated_kb
is the positive part of the memory delta. -/
def entryOf (x : ℕ × ℕ × ℕ) : measure_samples_data_t :=
  ⟨x.1, x.2.1, x.2.2, if x.2.1 < x.2.2 then x.2.2 - x.2.1 else 0⟩

/-- Entries recorded by appending a list of triples. -/
def entriesOf (l : List (ℕ × ℕ × ℕ)) : List measure_samples_data_t :=
  l.map entryOf

/-- Sum of a list of naturals as a rational. -/
def qsum (l : List ℕ) : ℚ :=
  (l.map (fun t : ℕ => (t : ℚ))).sum

/-- Sum of squares of a list of naturals as a rational. -/
def qsumsq (l : List ℕ) : ℚ :=
  (l.map (fun t : ℕ => (t : ℚ) ^ 2)).sum

/-! Arithmetic identities about the reference aggregates. -/

theorem qsum_nil : qsum [] = 0 := rfl

theorem qsum_append (l1 l2 : List ℕ) : qsum (l1 ++ l2) = qsum l1 + qsum l2 := by
  simp [qsum]

theorem qsumsq_append (l1 l2 : List ℕ) :
    qsumsq (l1 ++ l2) = qsumsq l1 + qsumsq l2 := by
  simp [qsumsq]

theorem meanOf_eq (l : List ℕ) : meanOf l = qsum l / (l.length : ℚ) := rfl

theorem list_sum_sub_sq (l : List ℚ) (μ : ℚ) :
    (l.map (fun t => (t - μ) ^ 2)).sum =
      (l.map (fun t => t ^ 2)).sum - 2 * μ * l.sum + (l.length : ℚ) * μ ^ 2 := by
  induction l with
  | nil => simp
  | cons x xs ih =>
    simp only [List.map_cons, List.sum_cons, List.length_cons, ih]
    push_cast
    ring

theorem m2Of_expand (l : List ℕ) :
    m2Of l = qsumsq l - 2 * meanOf l * qsum l + (l.length : ℚ) * meanOf l ^ 2 := by
  have h := list_sum_sub_sq (l.map (fun t : ℕ => (t : ℚ))) (meanOf l)
  rw [List.map_map, List.map_map, List.length_map] at h
  simp only [Function.comp_def] at h
  unfold m2Of qsumsq qsum
  exact h

theorem m2Of_closed (l : List ℕ) (h : l ≠ []) :
    m2Of l = qsumsq l - qsum l ^ 2 / (l.length : ℚ) := by
  have hl : (l.length : ℚ) ≠ 0 := by
    simp [List.length_eq_zero]
    exact h
  rw [m2Of_expand, meanOf_eq]
  field_simp
  ring

theorem m2Of_nonneg (l : List ℕ) : 0 ≤ m2Of l := by
  unfold m2Of
  apply List.sum_nonneg
  intro x hx
  obtain ⟨t, _, rfl⟩ := List.mem_map.mp hx
  positivity

theorem meanOf_append_single (l : List ℕ) (x : ℕ) :
    meanOf (l ++ [x]) =
      meanOf l + ((x : ℚ) - meanOf l) / ((l.length + 1 : ℕ) : ℚ) := by
  rcases eq_or_ne l [] with rfl | h
  · simp [meanOf, qsum]
  · have hl : (l.length : ℚ) ≠ 0 := by
      simp [List.length_eq_zero]; exact h
    have hx : qsum [x] = (x : ℚ) := by simp [qsum]
    simp only [meanOf_eq, qsum_append, hx, List.length_append,
      List.length_singleton]
    push_cast
    field_simp
    ring

theorem m2Of_append_single (l : List ℕ) (x : ℕ) :
    m2Of (l ++ [x]) =
      m2Of l + ((x : ℚ) - meanOf l) * ((x : ℚ) - meanOf (l ++ [x])) := by
  rcases eq_or_ne l [] with rfl | h
  · simp [m2Of, meanOf, qsum]
  · have hl : (l.length : ℚ) ≠ 0 := by
      simp [List.length_eq_zero]; exact h
    have hx : qsum [x] = (x : ℚ) := by simp [qsum]
    have hsx : qsumsq [x] = (x : ℚ) ^ 2 := by simp [qsumsq]
    have h1 : m2Of (l ++ [x]) =
        qsumsq l + (x : ℚ) ^ 2 - (qsum l + (x : ℚ)) ^ 2 /
          ((l.length : ℚ) + 1) := by
      rw [m2Of_closed _ (by simp), qsumsq_append, qsum_append, hx, hsx]
      simp only [List.length_append, List.length_singleton]
      push_cast
      ring_nf
    rw [h1, m2Of_closed l h, meanOf_append_single]
    simp only [meanOf_eq]
    push_cast
    field_simp
    ring

theorem meanOf_append_chan (l1 l2 : List ℕ) (h1 : l1 ≠ []) (h2 : l2 ≠ []) :
    meanOf (l1 ++ l2) =
      meanOf l1 + (meanOf l2 - meanOf l1) * ((l2.length : ℕ) : ℚ) /
        ((l1.length + l2.length : ℕ) : ℚ) := by
  have hl1 : ((l1.length : ℕ) : ℚ) ≠ 0 := by
    simp [List.length_eq_zero]; exact h1
  have hl2 : ((l2.length : ℕ) : ℚ) ≠ 0 := by
    simp [List.length_eq_zero]; exact h2
  have hl12 : ((l1.length : ℚ) + (l2.length : ℚ)) ≠ 0 := by
    positivity
  rw [meanOf_eq, meanOf_eq, meanOf_eq, qsum_append]
  simp only [List.length_append]
  push_cast
  field_simp
  ring

theorem m2Of_append_chan (l1 l2 : List ℕ) (h1 : l1 ≠ []) (h2 : l2 ≠ []) :
    m2Of (l1 ++ l2) =
      m2Of l1 + m2Of l2 +
        (meanOf l2 - meanOf l1) * (meanOf l2 - meanOf l1) *
          ((l1.length : ℕ) : ℚ) * ((l2.length : ℕ) : ℚ) /
          ((l1.length + l2.length : ℕ) : ℚ) := by
  have hl1 : ((l1.length : ℕ) : ℚ) ≠ 0 := by
    simp [List.length_eq_zero]; exact h1
  have hl2 : ((l2.length : ℕ) : ℚ) ≠ 0 := by
    simp [List.length_eq_zero]; exact h2
  have hl12 : ((l1.length : ℚ) + (l2.length : ℚ)) ≠ 0 := by
    positivity
  rw [m2Of_closed _ (by simp [h1]), m2Of_closed l1 h1, m2Of_closed l2 h2,
    meanOf_eq, meanOf_eq, qsumsq_append, qsum_append]
  simp only [List.length_append]
  push_cast
  field_simp
  ring

/-! Fold identities for the running minimum, maximum and wrapped sum. -/

theorem foldl_ifmin_eq_min (l : List ℕ) :
    ∀ a : ℕ, l.foldl (fun m t => if t < m then t else m) a =
      l.foldl min a := by
  induction l with
  | nil => intro a; rfl
  | cons x xs ih =>
    intro a
    simp only [List.foldl_cons, ih]
    congr 1
    rw [min_def]
    split_ifs <;> omega

theorem foldl_ifmax_eq_max (l : List ℕ) :
    ∀ a : ℕ, l.foldl (fun m t => if m < t then t else m) a =
      l.foldl max a := by
  induction l with
  | nil => intro a; rfl
  | cons x xs ih =>
    intro a
    simp only [List.foldl_cons, ih]
    congr 1
    rw [max_def]
    split_ifs <;> omega

theorem foldl_min_min (l : List ℕ) :
    ∀ a b : ℕ, l.foldl min (min a b) = min a (l.foldl min b) := by
  induction l with
  | nil => intro a b; rfl
  | cons x xs ih =>
    intro a b
    simp only [List.foldl_cons]
    rw [min_assoc, ih]

theorem foldl_max_max (l : List ℕ) :
    ∀ a b : ℕ, l.foldl max (max a b) = max a (l.foldl max b) := by
  induction l with
  | nil => intro a b; rfl
  | cons x xs ih =>
    intro a b
    simp only [List.foldl_cons]
    rw [max_assoc, ih]

theorem foldl_min_le_init (l : List ℕ) : ∀ a : ℕ, l.foldl min a ≤ a := by
  induction l with
  | nil => intro a; exact le_refl a
  | cons x xs ih =>
    intro a
    simp only [List.foldl_cons]
    exact le_trans (ih (min a x)) (min_le_left a x)

theorem foldl_max_le_init (l : List ℕ) : ∀ a : ℕ, a ≤ l.foldl max a := by
  induction l with
  | nil => intro a; exact le_refl a
  | cons x xs ih =>
    intro a
    simp only [List.foldl_cons]
    exact le_trans (le_max_left a x) (ih (max a x))

theorem foldl_min_le_mem (l : List ℕ) :
    ∀ a x, x ∈ l → l.foldl min a ≤ x := by
  induction l with
  | nil => intro a x hx; cases hx
  | cons y ys ih =>
    intro a x hx
    simp only [List.foldl_cons]
    rcases List.mem_cons.mp hx with rfl | hx
    · exact le_trans (foldl_min_le_init ys _) (min_le_right a x)
    · exact ih _ x hx

theorem foldl_max_mem_le (l : List ℕ) :
    ∀ a x, x ∈ l → x ≤ l.foldl max a := by
  induction l with
  | nil => intro a x hx; cases hx
  | cons y ys ih =>
    intro a x hx
    simp only [List.foldl_cons]
    rcases List.mem_cons.mp hx with rfl | hx
    · exact le_trans (le_max_right a x) (foldl_max_le_init ys _)
    · exact ih _ x hx

theorem minOf_nil : minOf [] = UINT64_MAX := rfl

theorem maxOf_nil : maxOf [] = 0 := rfl

theorem minOf_le_sentinel (l : List ℕ) : minOf l ≤ UINT64_MAX := by
  rw [minOf, foldl_ifmin_eq_min]
  exact foldl_min_le_init l UINT64_MAX

theorem minOf_append_single (l : List ℕ) (x : ℕ) :
    minOf (l ++ [x]) = if x < minOf l then x else minOf l := by
  rw [minOf, List.foldl_append]
  rfl

theorem maxOf_append_single (l : List ℕ) (x : ℕ) :
    maxOf (l ++ [x]) = if maxOf l < x then x else maxOf l := by
  rw [maxOf, List.foldl_append]
  rfl

theorem minOf_append (l1 l2 : List ℕ) :
    minOf (l1 ++ l2) = min (minOf l1) (minOf l2) := by
  have hs : l1.foldl min UINT64_MAX ≤ UINT64_MAX := foldl_min_le_init l1 _
  simp only [minOf, foldl_ifmin_eq_min, List.foldl_append]
  conv_lhs =>
    rw [show l1.foldl min UINT64_MAX =
      min (l1.foldl min UINT64_MAX) UINT64_MAX from (min_eq_left hs).symm]
  rw [foldl_min_min]

theorem maxOf_append (l1 l2 : List ℕ) :
    maxOf (l1 ++ l2) = max (maxOf l1) (maxOf l2) := by
  simp only [maxOf, foldl_ifmax_eq_max, List.foldl_append]
  conv_lhs =>
    rw [show l1.foldl max 0 = max (l1.foldl max 0) 0 from
      (max_eq_left (Nat.zero_le _)).symm]
  rw [foldl_max_max]

theorem minOf_le_mem (l : List ℕ) (x : ℕ) (hx : x ∈ l) : minOf l ≤ x := by
  rw [minOf, foldl_ifmin_eq_min]
  exact foldl_min_le_mem l _ x hx

theorem maxOf_mem_le (l : List ℕ) (x : ℕ) (hx : x ∈ l) : x ≤ maxOf l := by
  rw [maxOf, foldl_ifmax_eq_max]
  exact foldl_max_mem_le l _ x hx

theorem sumOf_append_single (l : List ℕ) (x : ℕ) :
    sumOf (l ++ [x]) = (sumOf l + x) % U64_MOD := by
  simp only [sumOf, List.sum_append, List.sum_cons, List.sum_nil, U64_MOD]
  omega

theorem sumOf_append (l1 l2 : List ℕ) :
    sumOf (l1 ++ l2) = (sumOf l1 + sumOf l2) % U64_MOD := by
  simp only [sumOf, List.sum_append]
  conv_rhs => rw [← Nat.add_mod]

/-! Preservation of aggregate consistency by the accumulator operations. -/

theorem timesOf_data (s : measure_samples_t) :
    timesOf s = s.data.map (·.time_ns) := rfl

theorem clear_consistent (s : measure_samples_t) :
    Consistent (measure_samples_clear s) := by
  refine ⟨rfl, Nat.zero_le _, ?_, rfl, rfl, ?_, rfl⟩
  · simp [measure_samples_clear, timesOf, sumOf]
  · simp [measure_samples_clear, timesOf, meanOf]

theorem update_preserves_consistent {s s' : measure_samples_t} {e b a : ℕ}
    (hs : Consistent s)
    (h : measure_samples_update_sample_ex s e b a = some s') :
    Consistent s' ∧ s'.data = s.data ++ [entryOf (e, b, a)] ∧
      s'.count = s.count + 1 ∧ s'.capacity = s.capacity ∧
      s'.name = s.name ∧ s'.cl = s.cl ∧ s'.rciw = s.rciw ∧
      s'.gc_step = s.gc_step ∧ s'.base_kb = s.base_kb := by
  obtain ⟨hcount, hcap, hsum, hmin, hmax, hmean, hM2⟩ := hs
  rw [measure_samples_update_sample_ex] at h
  by_cases hful : s.capacity ≤ s.count
  · rw [if_pos hful] at h
    cases h
  · rw [if_neg hful] at h
    simp only [Option.some.injEq] at h
    subst h
    have hts : timesOf { s with
        count := s.count + 1
        sum := (s.sum + e) % U64_MOD
        min := if e < s.min then e else s.min
        max := if s.max < e then e else s.max
        mean := if s.count + 1 < 2 then (e : ℚ)
          else s.mean + ((e : ℚ) - s.mean) / ((s.count + 1 : ℕ) : ℚ)
        M2 := if s.count + 1 < 2 then 0
          else s.M2 + ((e : ℚ) - s.mean) *
            ((e : ℚ) - (if s.count + 1 < 2 then (e : ℚ)
              else s.mean + ((e : ℚ) - s.mean) / ((s.count + 1 : ℕ) : ℚ)))
        sum_allocated_kb := s.sum_allocated_kb +
          (if b < a then a - b else 0)
        data := s.data ++ [⟨e, b, a, if b < a then a - b else 0⟩] } =
        timesOf s ++ [e] := by
      simp [timesOf]
    refine ⟨⟨?_, ?_, ?_, ?_, ?_, ?_, ?_⟩, ?_, rfl, rfl, rfl, rfl, rfl, rfl, rfl⟩
    · simpa using hcount
    · simpa using Nat.succ_le_of_lt (Nat.lt_of_not_le hful)
    · show (s.sum + e) % U64_MOD = sumOf _
      rw [hts, sumOf_append_single, hsum]
    · show (if e < s.min then e else s.min) = minOf _
      rw [hts, minOf_append_single, hmin]
    · show (if s.max < e then e else s.max) = maxOf _
      rw [hts, maxOf_append_single, hmax]
    · show (if s.count + 1 < 2 then (e : ℚ)
          else s.mean + ((e : ℚ) - s.mean) / ((s.count + 1 : ℕ) : ℚ)) =
          meanOf _
      rw [hts]
      by_cases h0 : s.count + 1 < 2
      · have hnil : timesOf s = [] := by
          have : s.data.length = 0 := by omega
          simp [timesOf, List.length_eq_zero.mp this]
        rw [if_pos h0, hnil]
        simp [meanOf, qsum]
      · have hnnil : timesOf s ≠ [] := by
          intro hcontra
          have := List.length_eq_zero.mpr hcontra
          simp only [timesOf, List.length_map] at this
          omega
        rw [if_neg h0, meanOf_append_single, hmean]
        have hlen : (timesOf s).length = s.count := by
          simp [timesOf, List.length_map, hcount]
        rw [hlen]
    · show (if s.count + 1 < 2 then (0 : ℚ)
          else s.M2 + ((e : ℚ) - s.mean) *
            ((e : ℚ) - (if s.count + 1 < 2 then (e : ℚ)
              else s.mean + ((e : ℚ) - s.mean) / ((s.count + 1 : ℕ) : ℚ)))) =
          m2Of _
      rw [hts]
      by_cases h0 : s.count + 1 < 2
      · have hnil : timesOf s = [] := by
          have : s.data.length = 0 := by omega
          simp [timesOf, List.length_eq_zero.mp this]
        rw [if_pos h0, hnil]
        simp [m2Of, meanOf, qsum]
      · have hlen : (timesOf s).length = s.count := by
          simp [timesOf, List.length_map, hcount]
        rw [if_neg h0, if_neg h0, m2Of_append_single, hM2, hmean,
          meanOf_append_single, hlen]
    · simp [entryOf]

theorem update_preserves_weak {s s' : measure_samples_t} {e b a : ℕ}
    (hs : WeakConsistent s)
    (h : measure_samples_update_sample_ex s e b a = some s') :
    WeakConsistent s' := by
  obtain ⟨hcount, hcap, hsum, hbound, hmean, hM2⟩ := hs
  rw [measure_samples_update_sample_ex] at h
  by_cases hful : s.capacity ≤ s.count
  · rw [if_pos hful] at h
    cases h
  · rw [if_neg hful] at h
    simp only [Option.some.injEq] at h
    subst h
    have hts : (s.data ++ [(⟨e, b, a,
        if b < a then a - b else 0⟩ : measure_samples_data_t)]).map
          (·.time_ns) = timesOf s ++ [e] := by
      simp [timesOf]
    refine ⟨by simpa using hcount,
      by simpa using Nat.succ_le_of_lt (Nat.lt_of_not_le hful), ?_, ?_, ?_, ?_⟩
    · show (s.sum + e) % U64_MOD = sumOf _
      rw [timesOf_data]
      simp only
      rw [hts, sumOf_append_single, hsum]
    · intro d hd
      simp only [List.mem_append, List.mem_singleton] at hd
      rcases hd with hd | rfl
      · have := hbound d hd
        constructor
        · show (if e < s.min then e else s.min) ≤ d.time_ns
          split <;> omega
        · show d.time_ns ≤ (if s.max < e then e else s.max)
          split <;> omega
      · constructor
        · show (if e < s.min then e else s.min) ≤ e
          split <;> omega
        · show (e : ℕ) ≤ (if s.max < e then e else s.max)
          split <;> omega
    · show (if s.count + 1 < 2 then (e : ℚ)
          else s.mean + ((e : ℚ) - s.mean) / ((s.count + 1 : ℕ) : ℚ)) =
          meanOf _
      rw [timesOf_data]
      simp only
      rw [hts]
      by_cases h0 : s.count + 1 < 2
      · have hnil : timesOf s = [] := by
          have : s.data.length = 0 := by omega
          simp [timesOf, List.length_eq_zero.mp this]
        rw [if_pos h0, hnil]
        simp [meanOf, qsum]
      · have hnnil : timesOf s ≠ [] := by
          intro hcontra
          have := List.length_eq_zero.mpr hcontra
          simp only [timesOf, List.length_map] at this
          omega
        rw [if_neg h0, meanOf_append_single, hmean]
        have hlen : (timesOf s).length = s.count := by
          simp [timesOf, List.length_map, hcount]
        rw [hlen]
    · show (if s.count + 1 < 2 then (0 : ℚ)
          else s.M2 + ((e : ℚ) - s.mean) *
            ((e : ℚ) - (if s.count + 1 < 2 then (e : ℚ)
              else s.mean + ((e : ℚ) - s.mean) / ((s.count + 1 : ℕ) : ℚ)))) =
          m2Of _
      rw [timesOf_data]
      simp only
      rw [hts]
      by_cases h0 : s.count + 1 < 2
      · have hnil : timesOf s = [] := by
          have : s.data.length = 0 := by omega
          simp [timesOf, List.length_eq_zero.mp this]
        rw [if_pos h0, hnil]
        simp [m2Of, meanOf, qsum]
      · have hlen : (timesOf s).length = s.count := by
          simp [timesOf, List.length_map, hcount]
        rw [if_neg h0, if_neg h0, m2Of_append_single, hM2, hmean,
          meanOf_append_single, hlen]

theorem data_eq_nil_of_count {s : measure_samples_t}
    (hcount : s.count = s.data.length) (h0 : s.count = 0) : s.data = [] := by
  apply List.length_eq_zero.mp
  omega

theorem timesOf_len {s : measure_samples_t}
    (hcount : s.count = s.data.length) : (timesOf s).length = s.count := by
  simp [timesOf, List.length_map, hcount]

theorem timesOf_ne_nil {s : measure_samples_t}
    (hcount : s.count = s.data.length) (h0 : s.count ≠ 0) : timesOf s ≠ [] := by
  intro hcontra
  have := List.length_eq_zero.mpr hcontra
  simp only [timesOf, List.length_map] at this
  omega

theorem copy_preserves_consistent {dst src d : measure_samples_t}
    (hd : Consistent dst) (hs : Consistent src)
    (h : copy_samples dst src = .ok d) :
    Consistent d ∧ d.data = dst.data ++ src.data ∧
      d.capacity = dst.capacity ∧ d.count = dst.count + src.count ∧
      d.name = dst.name ∧ d.cl = dst.cl ∧ d.rciw = dst.rciw ∧
      d.gc_step = dst.gc_step ∧ d.base_kb = dst.base_kb := by
  obtain ⟨hcount1, hcap1, hsum1, hmin1, hmax1, hmean1, hM21⟩ := hd
  obtain ⟨hcount2, hcap2, hsum2, hmin2, hmax2, hmean2, hM22⟩ := hs
  rw [copy_samples] at h
  by_cases h0 : src.count = 0
  · rw [if_pos h0] at h
    simp only [Except.ok.injEq] at h
    subst h
    have hnil : src.data = [] := data_eq_nil_of_count hcount2 h0
    exact ⟨⟨hcount1, hcap1, hsum1, hmin1, hmax1, hmean1, hM21⟩,
      by simp [hnil], rfl, by omega, rfl, rfl, rfl, rfl, rfl⟩
  · rw [if_neg h0] at h
    by_cases hcap : dst.capacity < dst.count + src.count
    · rw [if_pos hcap] at h
      cases h
    · rw [if_neg hcap] at h
      simp only [Except.ok.injEq] at h
      by_cases hd0 : dst.count = 0
      · rw [if_pos hd0] at h
        subst h
        have hdnil : dst.data = [] := data_eq_nil_of_count hcount1 hd0
        have htnil : timesOf dst = [] := by simp [timesOf, hdnil]
        have htd : timesOf { dst with
            mean := src.mean, M2 := src.M2,
            sum := (dst.sum + src.sum) % U64_MOD,
            min := if src.min < dst.min then src.min else dst.min,
            max := if dst.max < src.max then src.max else dst.max,
            count := dst.count + src.count,
            data := dst.data ++ src.data } = timesOf dst ++ timesOf src := by
          simp [timesOf]
        refine ⟨⟨?_, ?_, ?_, ?_, ?_, ?_, ?_⟩, rfl, rfl, rfl, rfl, rfl, rfl,
          rfl, rfl⟩
        · show dst.count + src.count = (dst.data ++ src.data).length
          simp only [List.length_append]
          omega
        · show dst.count + src.count ≤ dst.capacity
          omega
        · show (dst.sum + src.sum) % U64_MOD = sumOf _
          rw [htd, sumOf_append, hsum1, hsum2]
        · show (if src.min < dst.min then src.min else dst.min) = minOf _
          rw [htd, minOf_append, ← hmin1, ← hmin2, min_def]
          split_ifs <;> omega
        · show (if dst.max < src.max then src.max else dst.max) = maxOf _
          rw [htd, maxOf_append, ← hmax1, ← hmax2, max_def]
          split_ifs <;> omega
        · show src.mean = meanOf _
          rw [htd, htnil, List.nil_append]
          exact hmean2
        · show src.M2 = m2Of _
          rw [htd, htnil, List.nil_append]
          exact hM22
      · rw [if_neg hd0] at h
        subst h
        have hne1 : timesOf dst ≠ [] := timesOf_ne_nil hcount1 hd0
        have hne2 : timesOf src ≠ [] := timesOf_ne_nil hcount2 h0
        have hlen1 : (timesOf dst).length = dst.count := timesOf_len hcount1
        have hlen2 : (timesOf src).length = src.count := timesOf_len hcount2
        have htd : timesOf { dst with
            mean := dst.mean + (src.mean - dst.mean) * ((src.count : ℕ) : ℚ) /
              ((dst.count + src.count : ℕ) : ℚ),
            M2 := dst.M2 + src.M2 + (src.mean - dst.mean) *
              (src.mean - dst.mean) * ((dst.count : ℕ) : ℚ) *
              ((src.count : ℕ) : ℚ) / ((dst.count + src.count : ℕ) : ℚ),
            sum := (dst.sum + src.sum) % U64_MOD,
            min := if src.min < dst.min then src.min else dst.min,
            max := if dst.max < src.max then src.max else dst.max,
            count := dst.count + src.count,
            data := dst.data ++ src.data } = timesOf dst ++ timesOf src := by
          simp [timesOf]
        refine ⟨⟨?_, ?_, ?_, ?_, ?_, ?_, ?_⟩, rfl, rfl, rfl, rfl, rfl, rfl,
          rfl, rfl⟩
        · show dst.count + src.count = (dst.data ++ src.data).length
          simp only [List.length_append]
          omega
        · show dst.count + src.count ≤ dst.capacity
          omega
        · show (dst.sum + src.sum) % U64_MOD = sumOf _
          rw [htd, sumOf_append, hsum1, hsum2]
        · show (if src.min < dst.min then src.min else dst.min) = minOf _
          rw [htd, minOf_append, ← hmin1, ← hmin2, min_def]
          split_ifs <;> omega
        · show (if dst.max < src.max then src.max else dst.max) = maxOf _
          rw [htd, maxOf_append, ← hmax1, ← hmax2, max_def]
          split_ifs <;> omega
        · show dst.mean + (src.mean - dst.mean) * ((src.count : ℕ) : ℚ) /
              ((dst.count + src.count : ℕ) : ℚ) = meanOf _
          rw [htd, meanOf_append_chan _ _ hne1 hne2, hmean1, hmean2, hlen1,
            hlen2]
        · show dst.M2 + src.M2 + (src.mean - dst.mean) *
              (src.mean - dst.mean) * ((dst.count : ℕ) : ℚ) *
              ((src.count : ℕ) : ℚ) / ((dst.count + src.count : ℕ) : ℚ) =
              m2Of _
          rw [htd, m2Of_append_chan _ _ hne1 hne2, hmean1, hmean2, hM21, hM22,
            hlen1, hlen2]

theorem copy_preserves_weak {dst src d : measure_samples_t}
    (hd : WeakConsistent dst) (hs : WeakConsistent src)
    (h : copy_samples dst src = .ok d) : WeakConsistent d := by
  obtain ⟨hcount1, hcap1, hsum1, hbound1, hmean1, hM21⟩ := hd
  obtain ⟨hcount2, hcap2, hsum2, hbound2, hmean2, hM22⟩ := hs
  rw [copy_samples] at h
  by_cases h0 : src.count = 0
  · rw [if_pos h0] at h
    simp only [Except.ok.injEq] at h
    subst h
    exact ⟨hcount1, hcap1, hsum1, hbound1, hmean1, hM21⟩
  · rw [if_neg h0] at h
    by_cases hcap : dst.capacity < dst.count + src.count
    · rw [if_pos hcap] at h
      cases h
    · rw [if_neg hcap] at h
      simp only [Except.ok.injEq] at h
      by_cases hd0 : dst.count = 0
      · rw [if_pos hd0] at h
        subst h
        have hdnil : dst.data = [] := data_eq_nil_of_count hcount1 hd0
        have htnil : timesOf dst = [] := by simp [timesOf, hdnil]
        have htd : timesOf { dst with
            mean := src.mean, M2 := src.M2,
            sum := (dst.sum + src.sum) % U64_MOD,
            min := if src.min < dst.min then src.min else dst.min,
            max := if dst.max < src.max then src.max else dst.max,
            count := dst.count + src.count,
            data := dst.data ++ src.data } = timesOf dst ++ timesOf src := by
          simp [timesOf]
        refine ⟨?_, ?_, ?_, ?_, ?_, ?_⟩
        · show dst.count + src.count = (dst.data ++ src.data).length
          simp only [List.length_append]
          omega
        · show dst.count + src.count ≤ dst.capacity
          omega
        · show (dst.sum + src.sum) % U64_MOD = sumOf _
          rw [htd, sumOf_append, hsum1, hsum2]
        · intro x hx
          simp only [List.mem_append] at hx
          rcases hx with hx | hx
          · obtain ⟨hl, hr⟩ := hbound1 x hx
            constructor
            · show (if src.min < dst.min then src.min else dst.min) ≤ _
              split <;> omega
            · show _ ≤ (if dst.max < src.max then src.max else dst.max)
              split <;> omega
          · obtain ⟨hl, hr⟩ := hbound2 x hx
            constructor
            · show (if src.min < dst.min then src.min else dst.min) ≤ _
              split <;> omega
            · show _ ≤ (if dst.max < src.max then src.max else dst.max)
              split <;> omega
        · show src.mean = meanOf _
          rw [htd, htnil, List.nil_append]
          exact hmean2
        · show src.M2 = m2Of _
          rw [htd, htnil, List.nil_append]
          exact hM22
      · rw [if_neg hd0] at h
        subst h
        have hne1 : timesOf dst ≠ [] := timesOf_ne_nil hcount1 hd0
        have hne2 : timesOf src ≠ [] := timesOf_ne_nil hcount2 h0
        have hlen1 : (timesOf dst).length = dst.count := timesOf_len hcount1
        have hlen2 : (timesOf src).length = src.count := timesOf_len hcount2
        have htd : timesOf { dst with
            mean := dst.mean + (src.mean - dst.mean) * ((src.count : ℕ) : ℚ) /
              ((dst.count + src.count : ℕ) : ℚ),
            M2 := dst.M2 + src.M2 + (src.mean - dst.mean) *
              (src.mean - dst.mean) * ((dst.count : ℕ) : ℚ) *
              ((src.count : ℕ) : ℚ) / ((dst.count + src.count : ℕ) : ℚ),
            sum := (dst.sum + src.sum) % U64_MOD,
            min := if src.min < dst.min then src.min else dst.min,
            max := if dst.max < src.max then src.max else dst.max,
            count := dst.count + src.count,
            data := dst.data ++ src.data } = timesOf dst ++ timesOf src := by
          simp [timesOf]
        refine ⟨?_, ?_, ?_, ?_, ?_, ?_⟩
        · show dst.count + src.count = (dst.data ++ src.data).length
          simp only [List.length_append]
          omega
        · show dst.count + src.count ≤ dst.capacity
          omega
        · show (dst.sum + src.sum) % U64_MOD = sumOf _
          rw [htd, sumOf_append, hsum1, hsum2]
        · intro x hx
          simp only [List.mem_append] at hx
          rcases hx with hx | hx
          · obtain ⟨hl, hr⟩ := hbound1 x hx
            constructor
            · show (if src.min < dst.min then src.min else dst.min) ≤ _
              split <;> omega
            · show _ ≤ (if dst.max < src.max then src.max else dst.max)
              split <;> omega
          · obtain ⟨hl, hr⟩ := hbound2 x hx
            constructor
            · show (if src.min < dst.min then src.min else dst.min) ≤ _
              split <;> omega
            · show _ ≤ (if dst.max < src.max then src.max else dst.max)
              split <;> omega
        · show dst.mean + (src.mean - dst.mean) * ((src.count : ℕ) : ℚ) /
              ((dst.count + src.count : ℕ) : ℚ) = meanOf _
          rw [htd, meanOf_append_chan _ _ hne1 hne2, hmean1, hmean2, hlen1,
            hlen2]
        · show dst.M2 + src.M2 + (src.mean - dst.mean) *
              (src.mean - dst.mean) * ((dst.count : ℕ) : ℚ) *
              ((src.count : ℕ) : ℚ) / ((dst.count + src.count : ℕ) : ℚ) =
              m2Of _
          rw [htd, m2Of_append_chan _ _ hne1 hne2, hmean1, hmean2, hM21, hM22,
            hlen1, hlen2]

theorem foldlM_copy_weak (sets : List measure_samples_t) :
    ∀ acc m, WeakConsistent acc → (∀ x ∈ sets, WeakConsistent x) →
      List.foldlM (fun a i => copy_samples a i) acc sets = .ok m →
      WeakConsistent m := by
  induction sets with
  | nil =>
    intro acc m hacc _ h
    simp only [List.foldlM_nil] at h
    cases h
    exact hacc
  | cons x xs ih =>
    intro acc m hacc hall h
    simp only [List.foldlM_cons] at h
    cases hcs : copy_samples acc x with
    | error e => rw [hcs] at h; cases h
    | ok d =>
      rw [hcs] at h
      exact ih d m (copy_preserves_weak hacc (hall x (by simp)) hcs)
        (fun y hy => hall y (by simp [hy])) h

theorem foldlM_copy_consistent (sets : List measure_samples_t) :
    ∀ acc, Consistent acc → (∀ x ∈ sets, Consistent x) →
      acc.count + (sets.map (·.count)).sum ≤ acc.capacity →
      ∃ m, List.foldlM (fun a i => copy_samples a i) acc sets = .ok m ∧
        Consistent m ∧ m.data = acc.data ++ (sets.map (·.data)).flatten ∧
        m.capacity = acc.capacity ∧
        m.count = acc.count + (sets.map (·.count)).sum ∧
        m.name = acc.name ∧ m.cl = acc.cl ∧ m.rciw = acc.rciw ∧
        m.gc_step = acc.gc_step ∧ m.base_kb = acc.base_kb := by
  induction sets with
  | nil =>
    intro acc hacc _ _
    exact ⟨acc, by simp only [List.foldlM_nil]; rfl, hacc, by simp, rfl,
      by simp, rfl, rfl, rfl, rfl, rfl⟩
  | cons x xs ih =>
    intro acc hacc hall hcap
    simp only [List.map_cons, List.sum_cons] at hcap
    cases hcs : copy_samples acc x with
    | error e =>
      exfalso
      rw [copy_samples] at hcs
      by_cases h0 : x.count = 0
      · rw [if_pos h0] at hcs; cases hcs
      · rw [if_neg h0] at hcs
        by_cases hc2 : acc.capacity < acc.count + x.count
        · omega
        · rw [if_neg hc2] at hcs; cases hcs
    | ok d =>
      obtain ⟨hd, hdata, hdcap, hdcount, hname, hcl, hrciw, hgc, hbase⟩ :=
        copy_preserves_consistent hacc (hall x (by simp)) hcs
      obtain ⟨m, hm, hmc, hmdata, hmcap, hmcount, hmname, hmcl, hmrciw, hmgc,
        hmbase⟩ := ih d hd (fun y hy => hall y (by simp [hy])) (by omega)
      refine ⟨m, ?_, hmc, ?_, hmcap.trans hdcap, ?_, ?_, ?_, ?_, ?_, ?_⟩
      · rw [List.foldlM_cons, hcs]
        exact hm
      · rw [hmdata, hdata]
        simp
      · rw [hmcount, hdcount]
        simp only [List.map_cons, List.sum_cons]
        omega
      · rw [hmname, hname]
      · rw [hmcl, hcl]
      · rw [hmrciw, hrciw]
      · rw [hmgc, hgc]
      · rw [hmbase, hbase]

theorem merged0_consistent (name : String) (capacity : ℕ) (gc_step : ℤ)
    (cl rciw : ℚ) :
    Consistent { new_measure_samples name capacity gc_step cl rciw with
      min := UINT64_MAX } := by
  refine ⟨rfl, Nat.zero_le _, ?_, rfl, rfl, ?_, rfl⟩
  · simp [new_measure_samples, timesOf, sumOf]
  · simp [new_measure_samples, timesOf, meanOf]

theorem merge_preserves_weak {name : String} {sets : List measure_samples_t}
    {m : measure_samples_t} (hall : ∀ x ∈ sets, WeakConsistent x)
    (h : merge_lua name sets = .ok m) : WeakConsistent m := by
  cases sets with
  | nil => cases h
  | cons s rest =>
    simp only [merge_lua] at h
    cases hf : List.foldlM (fun a i => copy_samples a i)
        { new_measure_samples name ((List.map (·.capacity) (s :: rest)).sum)
            s.gc_step s.cl s.rciw with min := UINT64_MAX } (s :: rest) with
    | error e => rw [hf] at h; cases h
    | ok m0 =>
      rw [hf] at h
      simp only [Except.ok.injEq] at h
      have hm0 : WeakConsistent m0 := by
        apply foldlM_copy_weak _ _ _ _ hall hf
        have hc := merged0_consistent name
          ((List.map (·.capacity) (s :: rest)).sum) s.gc_step s.cl s.rciw
        obtain ⟨h1, h2, h3, h4, h5, h6, h7⟩ := hc
        refine ⟨h1, h2, h3, ?_, h6, h7⟩
        intro x hx
        simp [new_measure_samples] at hx
      subst h
      by_cases h0 : m0.count = 0
      · rw [if_pos h0]
        obtain ⟨h1, h2, h3, h4, h5, h6⟩ := hm0
        have hnil : m0.data = [] := data_eq_nil_of_count h1 h0
        refine ⟨h1, h2, h3, ?_, h5, h6⟩
        intro x hx
        rw [show ({ m0 with min := 0 } : measure_samples_t).data = m0.data
          from rfl, hnil] at hx
        cases hx
      · rw [if_neg h0]
        exact hm0

theorem appendAll_nil (s : measure_samples_t) : appendAll s [] = s := rfl

theorem appendAll_cons (s : measure_samples_t) (x : ℕ × ℕ × ℕ)
    (l : List (ℕ × ℕ × ℕ)) :
    appendAll s (x :: l) =
      appendAll ((measure_samples_update_sample_ex s x.1 x.2.1 x.2.2).getD s)
        l := rfl

theorem appendAll_weak (l : List (ℕ × ℕ × ℕ)) :
    ∀ s, WeakConsistent s → WeakConsistent (appendAll s l) := by
  induction l with
  | nil => intro s hs; exact hs
  | cons x xs ih =>
    intro s hs
    rw [appendAll_cons]
    cases hu : measure_samples_update_sample_ex s x.1 x.2.1 x.2.2 with
    | none => exact ih s hs
    | some s' =>
      simp only [Option.getD_some]
      exact ih s' (update_preserves_weak hs hu)

theorem appendAll_consistent (l : List (ℕ × ℕ × ℕ)) :
    ∀ s, Consistent s → s.count + l.length ≤ s.capacity →
      Consistent (appendAll s l) ∧
        (appendAll s l).data = s.data ++ entriesOf l ∧
        (appendAll s l).count = s.count + l.length ∧
        (appendAll s l).capacity = s.capacity ∧
        (appendAll s l).name = s.name ∧ (appendAll s l).cl = s.cl ∧
        (appendAll s l).rciw = s.rciw ∧
        (appendAll s l).gc_step = s.gc_step ∧
        (appendAll s l).base_kb = s.base_kb := by
  induction l with
  | nil =>
    intro s hs _
    exact ⟨hs, by simp [appendAll_nil, entriesOf], by simp [appendAll_nil],
      rfl, rfl, rfl, rfl, rfl, rfl⟩
  | cons x xs ih =>
    intro s hs hcap
    rw [appendAll_cons]
    cases hu : measure_samples_update_sample_ex s x.1 x.2.1 x.2.2 with
    | none =>
      exfalso
      rw [measure_samples_update_sample_ex] at hu
      by_cases hful : s.capacity ≤ s.count
      · simp only [List.length_cons] at hcap
        omega
      · rw [if_neg hful] at hu
        cases hu
    | some s' =>
      simp only [Option.getD_some]
      obtain ⟨hs', hdata, hcount, hcap', hname, hcl, hrciw, hgc, hbase⟩ :=
        update_preserves_consistent hs hu
      obtain ⟨ih1, ih2, ih3, ih4, ih5, ih6, ih7, ih8, ih9⟩ :=
        ih s' hs' (by simp only [List.length_cons] at hcap; omega)
      refine ⟨ih1, ?_, ?_, ih4.trans hcap', ih5.trans hname, ih6.trans hcl,
        ih7.trans hrciw, ih8.trans hgc, ih9.trans hbase⟩
      · rw [ih2, hdata]
        simp [entriesOf]
      · rw [ih3, hcount]
        simp only [List.length_cons]
        omega

theorem new_weak (name : String) (capacity : ℕ) (gc_step : ℤ) (cl rciw : ℚ) :
    WeakConsistent (new_measure_samples name capacity gc_step cl rciw) := by
  refine ⟨rfl, Nat.zero_le _, ?_, ?_, ?_, rfl⟩
  · simp [new_measure_samples, timesOf, sumOf]
  · intro x hx
    simp [new_measure_samples] at hx
  · simp [new_measure_samples, timesOf, meanOf]

theorem consistent_weak {s : measure_samples_t} (h : Consistent s) :
    WeakConsistent s := by
  obtain ⟨h1, h2, h3, h4, h5, h6, h7⟩ := h
  refine ⟨h1, h2, h3, ?_, h6, h7⟩
  intro d hd
  have hmem : d.time_ns ∈ timesOf s := by
    simp only [timesOf, List.mem_map]
    exact ⟨d, hd, rfl⟩
  exact ⟨h4 ▸ minOf_le_mem _ _ hmem, h5 ▸ maxOf_mem_le _ _ hmem⟩

theorem reachable_weak {s : measure_samples_t} (h : Reachable s) :
    WeakConsistent s := by
  induction h with
  | new name capacity gc_step cl rciw => exact new_weak name capacity gc_step cl rciw
  | clear _ _ => exact consistent_weak (clear_consistent _)
  | preprocess gc_count_kb _ ih =>
    obtain ⟨h1, h2, h3, h4, h5, h6⟩ := ih
    exact ⟨h1, h2, h3, h4, h5, h6⟩
  | append _ hup ih => exact update_preserves_weak ih hup
  | merge _ hok ih => exact merge_preserves_weak ih hok

theorem reachable_appendAll {s : measure_samples_t}
    (h : Reachable s) (l : List (ℕ × ℕ × ℕ)) : Reachable (appendAll s l) := by
  induction l generalizing s with
  | nil => exact h
  | cons x xs ih =>
    rw [appendAll_cons]
    cases hu : measure_samples_update_sample_ex s x.1 x.2.1 x.2.2 with
    | none => exact ih h
    | some s' =>
      simp only [Option.getD_some]
      exact ih (Reachable.append h hu)

/-- C4: every SampleSet reachable by append, clear and merge operations
satisfies: when count is at least 1, min bounds every stored time_ns from
below and max from above; when count is at least 2, M2 / (count - 1) equals
the unbiased sample variance of the stored samples and is nonnegative. -/
theorem C4_sampleset_invariants (s : measure_samples_t) (h : Reachable s) :
    (1 ≤ s.count → ∀ d ∈ s.data, s.min ≤ d.time_ns ∧ d.time_ns ≤ s.max) ∧
    (2 ≤ s.count →
      s.M2 / ((s.count - 1 : ℕ) : ℚ) = sample_variance_spec (timesOf s) ∧
      0 ≤ s.M2 / ((s.count - 1 : ℕ) : ℚ)) := by
  obtain ⟨h1, h2, h3, h4, h5, h6⟩ := reachable_weak h
  refine ⟨fun _ => h4, fun hc2 => ?_⟩
  have hlen : (timesOf s).length = s.count := timesOf_len h1
  have heq : s.M2 / ((s.count - 1 : ℕ) : ℚ) = sample_variance_spec (timesOf s) := by
    rw [sample_variance_spec, hlen, h6]
  refine ⟨heq, ?_⟩
  rw [heq, sample_variance_spec]
  apply div_nonneg (m2Of_nonneg _)
  positivity

/-- Witness for C4: the invariant holds at the concrete reachable state
obtained by clearing a fresh two-slot accumulator and appending samples 5
and 7. -/
theorem C4_sampleset_invariants_witness :
    (1 ≤ (appendAll (measure_samples_clear
        (new_measure_samples "w" 2 0 95 5)) [(5,0,0),(7,0,0)]).count →
      ∀ d ∈ (appendAll (measure_samples_clear
        (new_measure_samples "w" 2 0 95 5)) [(5,0,0),(7,0,0)]).data,
        (appendAll (measure_samples_clear
          (new_measure_samples "w" 2 0 95 5)) [(5,0,0),(7,0,0)]).min ≤
            d.time_ns ∧
          d.time_ns ≤ (appendAll (measure_samples_clear
            (new_measure_samples "w" 2 0 95 5)) [(5,0,0),(7,0,0)]).max) ∧
    (2 ≤ (appendAll (measure_samples_clear
        (new_measure_samples "w" 2 0 95 5)) [(5,0,0),(7,0,0)]).count →
      (appendAll (measure_samples_clear
        (new_measure_samples "w" 2 0 95 5)) [(5,0,0),(7,0,0)]).M2 /
          (((appendAll (measure_samples_clear
            (new_measure_samples "w" 2 0 95 5)) [(5,0,0),(7,0,0)]).count - 1 :
            ℕ) : ℚ) =
        sample_variance_spec (timesOf (appendAll (measure_samples_clear
          (new_measure_samples "w" 2 0 95 5)) [(5,0,0),(7,0,0)])) ∧
      0 ≤ (appendAll (measure_samples_clear
        (new_measure_samples "w" 2 0 95 5)) [(5,0,0),(7,0,0)]).M2 /
          (((appendAll (measure_samples_clear
            (new_measure_samples "w" 2 0 95 5)) [(5,0,0),(7,0,0)]).count - 1 :
            ℕ) : ℚ)) :=
  C4_sampleset_invariants _
    (reachable_appendAll (Reachable.clear (Reachable.new "w" 2 0 95 5))
      [(5,0,0),(7,0,0)])

theorem times_entriesOf_triplesOf (s : measure_samples_t) :
    (entriesOf (triplesOf s)).map (·.time_ns) = timesOf s := by
  simp only [entriesOf, triplesOf, timesOf, List.map_map]
  rfl

theorem entriesOf_append (l1 l2 : List (ℕ × ℕ × ℕ)) :
    entriesOf (l1 ++ l2) = entriesOf l1 ++ entriesOf l2 := by
  simp [entriesOf]

theorem triplesOf_length (s : measure_samples_t) :
    (triplesOf s).length = s.data.length := by
  simp [triplesOf]

theorem agg_eq_of_consistent {s t : measure_samples_t} (hs : Consistent s)
    (ht : Consistent t) (htimes : timesOf s = timesOf t) :
    s.count = t.count ∧ s.sum = t.sum ∧ s.min = t.min ∧ s.max = t.max ∧
      s.mean = t.mean ∧ s.M2 = t.M2 := by
  obtain ⟨hc1, _, hs1, hm1, hx1, he1, h21⟩ := hs
  obtain ⟨hc2, _, hs2, hm2, hx2, he2, h22⟩ := ht
  refine ⟨?_, ?_, ?_, ?_, ?_, ?_⟩
  · have l1 := timesOf_len hc1
    have l2 := timesOf_len hc2
    rw [← l1, ← l2, htimes]
  · rw [hs1, hs2, htimes]
  · rw [hm1, hm2, htimes]
  · rw [hx1, hx2, htimes]
  · rw [he1, he2, htimes]
  · rw [h21, h22, htimes]

/-- C1 counterexample: the claim compares the merged aggregates with those
obtained by appending all raw samples one by one into a fresh set, but a
set fresh from new_measure_samples has min memset to 0 (not the UINT64_MAX
sentinel that clear, restore and merge itself install), so its min stays 0
forever; merging consistent sets holding samples 5 and 7 yields min 5 while
the fresh-append baseline yields min 0. -/
theorem C1_counterexample :
    ((merge_lua "m"
        [appendAll (measure_samples_clear (new_measure_samples "a" 1 0 95 5))
           [(5, 0, 0)],
         appendAll (measure_samples_clear (new_measure_samples "b" 1 0 95 5))
           [(7, 0, 0)]]).toOption.map (·.min) = some 5) ∧
    (appendAll (new_measure_samples "m" 2 0 95 5) [(5, 0, 0), (7, 0, 0)]).min
      = 0 ∧ (5 : ℕ) ≠ 0 :=
  ⟨by decide, by decide, by decide⟩

/-- C1 (amended): for any aggregate-consistent SampleSets A and B holding
at least one sample between them, merging produces a fresh SampleSet whose
capacity is the sum of the capacities, whose raw data is A's data followed
by B's data, and whose aggregates (count, sum, min, max, mean, M2) equal
those obtained by appending all of A's then B's raw samples one by one into
a cleared empty accumulator of the summed capacity (the Chan combination
agrees with sequential Welford accumulation). -/
theorem C1_merge_equals_append (A B : measure_samples_t)
    (name name2 : String) (gc : ℤ) (cl rciw : ℚ)
    (hA : Consistent A) (hB : Consistent B) (h1 : 1 ≤ A.count + B.count) :
    ∃ M, merge_lua name [A, B] = .ok M ∧
      M.capacity = A.capacity + B.capacity ∧
      M.data = A.data ++ B.data ∧
      (let F := appendAll (measure_samples_clear
        (new_measure_samples name2 (A.capacity + B.capacity) gc cl rciw))
        (triplesOf A ++ triplesOf B)
      M.count = F.count ∧ M.sum = F.sum ∧ M.min = F.min ∧ M.max = F.max ∧
        M.mean = F.mean ∧ M.M2 = F.M2) := by
  have hcapA := hA.2.1
  have hcapB := hB.2.1
  have hcntA := hA.1
  have hcntB := hB.1
  -- the merge side
  have hm0 := merged0_consistent name ((List.map (·.capacity) [A, B]).sum)
    A.gc_step A.cl A.rciw
  obtain ⟨m0, hfold, hm0c, hm0data, hm0cap, hm0count, _, _, _, _, _⟩ :=
    foldlM_copy_consistent [A, B] _ hm0 (by
      intro x hx
      rcases List.mem_cons.mp hx with rfl | hx2
      · exact hA
      rcases List.mem_cons.mp hx2 with rfl | hx3
      · exact hB
      cases hx3)
      (by
        show 0 + (A.count + (B.count + 0)) ≤ A.capacity + (B.capacity + 0)
        omega)
  have hcnt : m0.count ≠ 0 := by
    rw [hm0count]
    simp only [List.map_cons, List.map_nil, List.sum_cons, List.sum_nil]
    omega
  have hmerge : merge_lua name [A, B] = .ok m0 := by
    simp only [merge_lua]
    rw [hfold]
    simp only [if_neg hcnt]
  have hm0data' : m0.data = A.data ++ B.data := by
    rw [hm0data]
    simp [new_measure_samples]
  -- the sequential-append side
  have hbase := clear_consistent (new_measure_samples name2
    (A.capacity + B.capacity) gc cl rciw)
  have hlenT : (triplesOf A ++ triplesOf B).length = A.count + B.count := by
    simp only [List.length_append, triplesOf_length]
    omega
  obtain ⟨hFc, hFdata, hFcount, hFcap, _, _, _, _, _⟩ :=
    appendAll_consistent (triplesOf A ++ triplesOf B) _ hbase (by
      show (measure_samples_clear _).count + _ ≤ (measure_samples_clear _).capacity
      rw [hlenT]
      show 0 + (A.count + B.count) ≤ (new_measure_samples name2
        (A.capacity + B.capacity) gc cl rciw).capacity
      show 0 + (A.count + B.count) ≤ A.capacity + B.capacity
      omega)
  -- the recorded time values agree
  have htimes : timesOf m0 = timesOf (appendAll (measure_samples_clear
      (new_measure_samples name2 (A.capacity + B.capacity) gc cl rciw))
      (triplesOf A ++ triplesOf B)) := by
    rw [timesOf_data, timesOf_data, hm0data', hFdata]
    rw [show (measure_samples_clear (new_measure_samples name2
      (A.capacity + B.capacity) gc cl rciw)).data = [] from rfl]
    rw [List.nil_append, entriesOf_append, List.map_append, List.map_append]
    rw [show (entriesOf (triplesOf A)).map (·.time_ns) = timesOf A from
      times_entriesOf_triplesOf A]
    rw [show (entriesOf (triplesOf B)).map (·.time_ns) = timesOf B from
      times_entriesOf_triplesOf B]
    rfl
  obtain ⟨e1, e2, e3, e4, e5, e6⟩ := agg_eq_of_consistent hm0c hFc htimes
  exact ⟨m0, hmerge, by rw [hm0cap]; simp [new_measure_samples],
    hm0data', e1, e2, e3, e4, e5, e6⟩

/-- Witness for the amended C1: the merge of two concrete singleton
accumulators (samples 5 and 7) matches sequential appending into a cleared
accumulator of capacity 2. -/
theorem C1_merge_equals_append_witness :
    Consistent (appendAll (measure_samples_clear
      (new_measure_samples "a" 1 0 95 5)) [(5, 0, 0)]) ∧
    Consistent (appendAll (measure_samples_clear
      (new_measure_samples "b" 1 0 95 5)) [(7, 0, 0)]) ∧
    1 ≤ (appendAll (measure_samples_clear
      (new_measure_samples "a" 1 0 95 5)) [(5, 0, 0)]).count +
      (appendAll (measure_samples_clear
        (new_measure_samples "b" 1 0 95 5)) [(7, 0, 0)]).count ∧
    (∃ M, merge_lua "m"
        [appendAll (measure_samples_clear
          (new_measure_samples "a" 1 0 95 5)) [(5, 0, 0)],
         appendAll (measure_samples_clear
          (new_measure_samples "b" 1 0 95 5)) [(7, 0, 0)]] = .ok M ∧
      M.capacity = (appendAll (measure_samples_clear
        (new_measure_samples "a" 1 0 95 5)) [(5, 0, 0)]).capacity +
        (appendAll (measure_samples_clear
          (new_measure_samples "b" 1 0 95 5)) [(7, 0, 0)]).capacity ∧
      M.data = (appendAll (measure_samples_clear
        (new_measure_samples "a" 1 0 95 5)) [(5, 0, 0)]).data ++
        (appendAll (measure_samples_clear
          (new_measure_samples "b" 1 0 95 5)) [(7, 0, 0)]).data ∧
      (let F := appendAll (measure_samples_clear
        (new_measure_samples "w" ((appendAll (measure_samples_clear
          (new_measure_samples "a" 1 0 95 5)) [(5, 0, 0)]).capacity +
          (appendAll (measure_samples_clear
            (new_measure_samples "b" 1 0 95 5)) [(7, 0, 0)]).capacity) 0 95 5))
        (triplesOf (appendAll (measure_samples_clear
          (new_measure_samples "a" 1 0 95 5)) [(5, 0, 0)]) ++
         triplesOf (appendAll (measure_samples_clear
          (new_measure_samples "b" 1 0 95 5)) [(7, 0, 0)]))
      M.count = F.count ∧ M.sum = F.sum ∧ M.min = F.min ∧ M.max = F.max ∧
        M.mean = F.mean ∧ M.M2 = F.M2)) :=
  ⟨(appendAll_consistent [(5, 0, 0)] _
      (clear_consistent (new_measure_samples "a" 1 0 95 5)) (by decide)).1,
   (appendAll_consistent [(7, 0, 0)] _
      (clear_consistent (new_measure_samples "b" 1 0 95 5)) (by decide)).1,
   by decide,
   C1_merge_equals_append _ _ "m" "w" 0 95 5
     (appendAll_consistent [(5, 0, 0)] _
       (clear_consistent (new_measure_samples "a" 1 0 95 5)) (by decide)).1
     (appendAll_consistent [(7, 0, 0)] _
       (clear_consistent (new_measure_samples "b" 1 0 95 5)) (by decide)).1
     (by decide)⟩

theorem stats_mean_sum_eq (l : List ℕ) :
    ∀ acc : ℕ, acc + l.sum ≤ UINT64_MAX →
      stats_mean_sum l acc = some (acc + l.sum) := by
  induction l with
  | nil => intro acc _; simp [stats_mean_sum]
  | cons v rest ih =>
    intro acc hacc
    simp only [List.sum_cons] at hacc
    rw [stats_mean_sum, if_neg (by unfold UINT64_MAX at *; omega)]
    rw [ih (acc + v) (by omega)]
    simp only [List.sum_cons, Option.some.injEq]
    omega

theorem qsum_eq_cast_sum (l : List ℕ) : qsum l = ((l.sum : ℕ) : ℚ) := by
  induction l with
  | nil => simp [qsum]
  | cons x xs ih =>
    simp only [qsum, List.map_cons, List.sum_cons] at *
    push_cast
    rw [ih]

theorem stats_mean_eq (l : List ℕ) (h0 : l ≠ []) (hs : l.sum ≤ UINT64_MAX) :
    stats_mean l = some (meanOf l) := by
  rw [stats_mean, if_neg (by simp [List.length_eq_zero]; exact h0),
    stats_mean_sum_eq l 0 (by omega)]
  show some (((0 + l.sum : ℕ) : ℚ) / (l.length : ℚ)) = some (meanOf l)
  rw [meanOf_eq, qsum_eq_cast_sum]
  norm_num

theorem kahan_fold (mean : ℚ) (l : List ℕ) :
    ∀ acc1 : ℚ, l.foldl (fun (acc : ℚ × ℚ) (v : ℕ) =>
      let diff := (v : ℚ) - mean
      let sq_diff := diff * diff
      let y := sq_diff - acc.2
      let t := acc.1 + y
      (t, (t - acc.1) - y)) (acc1, 0) =
      (acc1 + (l.map (fun t : ℕ => ((t : ℚ) - mean) * ((t : ℚ) - mean))).sum,
        0) := by
  induction l with
  | nil => intro acc1; simp
  | cons v rest ih =>
    intro acc1
    simp only [List.foldl_cons, List.map_cons, List.sum_cons]
    have hstep : (fun (acc : ℚ × ℚ) (v : ℕ) =>
        let diff := (v : ℚ) - mean
        let sq_diff := diff * diff
        let y := sq_diff - acc.2
        let t := acc.1 + y
        (t, (t - acc.1) - y)) (acc1, 0) v =
        (acc1 + ((v : ℚ) - mean) * ((v : ℚ) - mean), 0) := by
      simp only [Prod.mk.injEq]
      constructor <;> ring
    simp only [hstep, ih]
    rw [Prod.mk.injEq]
    constructor
    · ring
    · rfl

theorem stats_variance_eq (l : List ℕ) (h2 : 2 ≤ l.length)
    (hs : l.sum ≤ UINT64_MAX) :
    stats_variance l = some (m2Of l / ((l.length - 1 : ℕ) : ℚ)) := by
  have h0 : l ≠ [] := by
    intro hc
    rw [hc] at h2
    simp at h2
  rw [stats_variance, if_neg (by omega), if_neg (by omega),
    stats_mean_eq l h0 hs]
  simp only [kahan_fold (meanOf l) l]
  simp only [Option.some.injEq, zero_add]
  congr 1
  rw [m2Of]
  congr 1
  apply List.map_congr_left
  intro t _
  ring

/-- C2: for every sequence of appended samples with count at least 2 (and a
time total within the uint64 overflow guard of stats_mean), the Welford
variance M2 / (count - 1) agrees with the two-pass stats_variance within
relative tolerance 1e-9; in this exact-arithmetic model the two are equal,
so the difference is 0. -/
theorem C2_variance_two_pass (name : String) (cap : ℕ) (gc : ℤ)
    (cl rciw : ℚ) (l : List (ℕ × ℕ × ℕ)) (hlen : l.length ≤ cap)
    (hcount : 2 ≤ (appendAll (measure_samples_clear
      (new_measure_samples name cap gc cl rciw)) l).count)
    (hsum : (timesOf (appendAll (measure_samples_clear
      (new_measure_samples name cap gc cl rciw)) l)).sum ≤ UINT64_MAX) :
    ∃ v, stats_variance (timesOf (appendAll (measure_samples_clear
        (new_measure_samples name cap gc cl rciw)) l)) = some v ∧
      |(appendAll (measure_samples_clear
          (new_measure_samples name cap gc cl rciw)) l).M2 /
        (((appendAll (measure_samples_clear
          (new_measure_samples name cap gc cl rciw)) l).count - 1 : ℕ) : ℚ) -
        v| ≤ (1 / 10 ^ 9) * |v| := by
  obtain ⟨hc, _, hcnt, _, _, _, _, _, _⟩ :=
    appendAll_consistent l _ (clear_consistent
      (new_measure_samples name cap gc cl rciw)) (by
        show (measure_samples_clear _).count + l.length ≤
          (measure_samples_clear _).capacity
        show 0 + l.length ≤ cap
        omega)
  obtain ⟨hlen', _, _, _, _, hmean, hM2⟩ := hc
  have hlt : (timesOf (appendAll (measure_samples_clear
      (new_measure_samples name cap gc cl rciw)) l)).length =
      (appendAll (measure_samples_clear
        (new_measure_samples name cap gc cl rciw)) l).count :=
    timesOf_len hlen'
  refine ⟨m2Of (timesOf (appendAll (measure_samples_clear
      (new_measure_samples name cap gc cl rciw)) l)) /
      (((appendAll (measure_samples_clear
        (new_measure_samples name cap gc cl rciw)) l).count - 1 : ℕ) : ℚ),
    ?_, ?_⟩
  · rw [stats_variance_eq _ (by omega) hsum, hlt]
  · rw [hM2]
    simp only [sub_self, abs_zero]
    positivity

/-- Witness for C2 at the concrete sequence [1, 3] appended into a cleared
two-slot accumulator. -/
theorem C2_variance_two_pass_witness :
    ([((1 : ℕ), (0 : ℕ), (0 : ℕ)), (3, 0, 0)].length ≤ 2) ∧
    (2 ≤ (appendAll (measure_samples_clear
      (new_measure_samples "w" 2 0 95 5)) [(1, 0, 0), (3, 0, 0)]).count) ∧
    ((timesOf (appendAll (measure_samples_clear
      (new_measure_samples "w" 2 0 95 5)) [(1, 0, 0), (3, 0, 0)])).sum ≤
      UINT64_MAX) ∧
    (∃ v, stats_variance (timesOf (appendAll (measure_samples_clear
        (new_measure_samples "w" 2 0 95 5)) [(1, 0, 0), (3, 0, 0)])) =
        some v ∧
      |(appendAll (measure_samples_clear
          (new_measure_samples "w" 2 0 95 5)) [(1, 0, 0), (3, 0, 0)]).M2 /
        (((appendAll (measure_samples_clear
          (new_measure_samples "w" 2 0 95 5)) [(1, 0, 0), (3, 0, 0)]).count -
          1 : ℕ) : ℚ) - v| ≤ (1 / 10 ^ 9) * |v|) :=
  ⟨by decide, by decide, by decide,
    C2_variance_two_pass "w" 2 0 95 5 [(1, 0, 0), (3, 0, 0)] (by decide)
      (by decide) (by decide)⟩

theorem holm_step_props (m i : ℕ) (prev p : ℚ) (hprev0 : 0 ≤ prev)
    (hprev1 : prev ≤ 1) (hp0 : 0 ≤ p) (hp1 : p ≤ 1)
    (hmi : (i : ℚ) + 1 ≤ (m : ℚ)) (hstart : i = 0 → prev = 0) :
    0 ≤ holm_step m i prev p ∧ holm_step m i prev p ≤ 1 ∧
      prev ≤ holm_step m i prev p ∧ p ≤ holm_step m i prev p := by
  have had0 : 0 ≤ p * ((m : ℚ) - (i : ℚ)) := mul_nonneg hp0 (by linarith)
  have hadp : p ≤ p * ((m : ℚ) - (i : ℚ)) := by nlinarith
  simp only [holm_step]
  split_ifs with h1 h2 h3
  · exact ⟨by linarith, le_refl 1, hprev1, hp1⟩
  · exact ⟨hprev0, by push_neg at h2; exact h2, le_refl prev, by
      obtain ⟨_, hlt⟩ := h1; linarith⟩
  · refine ⟨by linarith, le_refl 1, hprev1, hp1⟩
  · push_neg at h1 h3
    refine ⟨had0, h3, ?_, hadp⟩
    by_cases hi : 0 < i
    · exact h1 hi
    · have : prev = 0 := hstart (by omega)
      linarith

theorem holm_go_props (m : ℕ) (l : List ℚ) :
    ∀ (i : ℕ) (prev : ℚ), i + l.length = m → (∀ p ∈ l, 0 ≤ p ∧ p ≤ 1) →
      0 ≤ prev → prev ≤ 1 → (i = 0 → prev = 0) →
      List.Chain (· ≤ ·) prev (holm_go m i prev l) ∧
      List.Forall₂ (· ≤ ·) l (holm_go m i prev l) ∧
      ∀ a ∈ holm_go m i prev l, a ≤ 1 := by
  induction l with
  | nil =>
    intro i prev _ _ _ _ _
    exact ⟨List.Chain.nil, List.Forall₂.nil, by intro a ha; cases ha⟩
  | cons p rest ih =>
    intro i prev hm hall hprev0 hprev1 hstart
    have hp := hall p (by simp)
    have hmi : (i : ℚ) + 1 ≤ (m : ℚ) := by
      have : i + 1 ≤ m := by
        simp only [List.length_cons] at hm
        omega
      exact_mod_cast this
    obtain ⟨ha0, ha1, hprevle, hple⟩ :=
      holm_step_props m i prev p hprev0 hprev1 hp.1 hp.2 hmi hstart
    obtain ⟨hchain, hforall, hle1⟩ :=
      ih (i + 1) (holm_step m i prev p)
        (by simp only [List.length_cons] at hm; omega)
        (fun q hq => hall q (by simp [hq])) ha0 ha1 (by omega)
    rw [holm_go]
    refine ⟨List.Chain.cons hprevle hchain, List.Forall₂.cons hple hforall,
      ?_⟩
    intro a ha
    rcases List.mem_cons.mp ha with rfl | ha2
    · exact ha1
    · exact hle1 a ha2

/-- C3: after Holm correction of any list of p-values in [0,1], the
adjusted values are non-decreasing along the ascending-by-raw-p order, each
adjusted value dominates its raw p-value, and every adjusted value is at
most 1. -/
theorem C3_holm_correction (ps : List ℚ) (h : ∀ p ∈ ps, 0 ≤ p ∧ p ≤ 1) :
    List.Chain' (· ≤ ·) (apply_holm_correction ps) ∧
    List.Forall₂ (· ≤ ·) (List.insertionSort (· ≤ ·) ps)
      (apply_holm_correction ps) ∧
    ∀ a ∈ apply_holm_correction ps, a ≤ 1 := by
  have hperm := List.perm_insertionSort (· ≤ ·) ps
  have hlen : (List.insertionSort (· ≤ ·) ps).length = ps.length :=
    hperm.length_eq
  obtain ⟨hchain, hforall, hle1⟩ :=
    holm_go_props ps.length (List.insertionSort (· ≤ ·) ps) 0 0
      (by omega) (fun p hp => h p (hperm.mem_iff.mp hp)) (le_refl 0)
      (by norm_num) (fun _ => rfl)
  exact ⟨List.Chain'.tail
    (show List.Chain' (· ≤ ·)
      ((0 : ℚ) :: holm_go ps.length 0 0 (List.insertionSort (· ≤ ·) ps))
      from hchain), hforall, hle1⟩

/-- Witness for C3 at the concrete p-value list [1/2, 1/10, 1]. -/
theorem C3_holm_correction_witness :
    (∀ p ∈ [(1 : ℚ)/2, 1/10, 1], 0 ≤ p ∧ p ≤ 1) ∧
    (List.Chain' (· ≤ ·) (apply_holm_correction [(1 : ℚ)/2, 1/10, 1]) ∧
     List.Forall₂ (· ≤ ·)
       (List.insertionSort (· ≤ ·) [(1 : ℚ)/2, 1/10, 1])
       (apply_holm_correction [(1 : ℚ)/2, 1/10, 1]) ∧
     ∀ a ∈ apply_holm_correction [(1 : ℚ)/2, 1/10, 1], a ≤ 1) :=
  ⟨by intro p hp; fin_cases hp <;> norm_num,
   C3_holm_correction [(1 : ℚ)/2, 1/10, 1]
     (by intro p hp; fin_cases hp <;> norm_num)⟩

theorem foldl_min_mem (l : List ℕ) : ∀ a : ℕ, l.foldl min a ∈ a :: l := by
  induction l with
  | nil => intro a; simp
  | cons x xs ih =>
    intro a
    simp only [List.foldl_cons]
    rcases min_choice a x with h | h
    · rcases List.mem_cons.mp (ih (min a x)) with hm | hm
      · rw [hm, h]; simp
      · simp [hm]
    · rcases List.mem_cons.mp (ih (min a x)) with hm | hm
      · rw [hm, h]; simp
      · simp [hm]

theorem foldl_max_mem (l : List ℕ) : ∀ a : ℕ, l.foldl max a ∈ a :: l := by
  induction l with
  | nil => intro a; simp
  | cons x xs ih =>
    intro a
    simp only [List.foldl_cons]
    rcases max_choice a x with h | h
    · rcases List.mem_cons.mp (ih (max a x)) with hm | hm
      · rw [hm, h]; simp
      · simp [hm]
    · rcases List.mem_cons.mp (ih (max a x)) with hm | hm
      · rw [hm, h]; simp
      · simp [hm]

theorem stats_min_le (times : List ℕ) (v : ℕ) (hv : v ∈ times) :
    stats_min times ≤ v := by
  cases times with
  | nil => cases hv
  | cons x rest =>
    rw [stats_min, foldl_ifmin_eq_min]
    rcases List.mem_cons.mp hv with rfl | hv2
    · exact foldl_min_le_init rest v
    · exact foldl_min_le_mem rest x v hv2

theorem stats_max_ge (times : List ℕ) (v : ℕ) (hv : v ∈ times) :
    v ≤ stats_max times := by
  cases times with
  | nil => cases hv
  | cons x rest =>
    rw [stats_max, foldl_ifmax_eq_max]
    rcases List.mem_cons.mp hv with rfl | hv2
    · exact foldl_max_le_init rest v
    · exact foldl_max_mem_le rest x v hv2

theorem stats_min_mem (times : List ℕ) (h : times ≠ []) :
    stats_min times ∈ times := by
  cases times with
  | nil => exact absurd rfl h
  | cons x rest =>
    rw [stats_min, foldl_ifmin_eq_min]
    exact foldl_min_mem rest x

theorem stats_max_mem (times : List ℕ) (h : times ≠ []) :
    stats_max times ∈ times := by
  cases times with
  | nil => exact absurd rfl h
  | cons x rest =>
    rw [stats_max, foldl_ifmax_eq_max]
    exact foldl_max_mem rest x

theorem sorted_getD_zero (times : List ℕ) (h : times ≠ []) :
    (List.insertionSort (· ≤ ·) times).getD 0 0 = stats_min times := by
  have hperm := List.perm_insertionSort (· ≤ ·) times
  have hsorted := List.sorted_insertionSort (· ≤ ·) times
  cases hs : List.insertionSort (· ≤ ·) times with
  | nil =>
    exfalso
    rw [hs] at hperm
    exact h hperm.symm.eq_nil
  | cons a t =>
    rw [hs] at hperm hsorted
    simp only [List.getD_cons_zero]
    have hmem : a ∈ times := hperm.mem_iff.mp (by simp)
    apply le_antisymm
    · rcases List.mem_cons.mp (hperm.mem_iff.mpr
        (stats_min_mem times h)) with he | ht
      · exact le_of_eq he.symm
      · exact List.rel_of_sorted_cons hsorted _ ht
    · exact stats_min_le times a hmem

theorem sorted_getD_last (times : List ℕ) (h : times ≠ []) :
    (List.insertionSort (· ≤ ·) times).getD (times.length - 1) 0 =
      stats_max times := by
  have hperm := List.perm_insertionSort (· ≤ ·) times
  have hsorted := List.sorted_insertionSort (· ≤ ·) times
  have hlen : (List.insertionSort (· ≤ ·) times).length = times.length :=
    hperm.length_eq
  have hn : 1 ≤ times.length := by
    cases times with
    | nil => exact absurd rfl h
    | cons x rest => simp
  have hlt : times.length - 1 < (List.insertionSort (· ≤ ·) times).length := by
    omega
  rw [List.getD_eq_getElem _ _ hlt]
  apply le_antisymm
  · exact stats_max_ge times _ (hperm.mem_iff.mp (by
      exact List.getElem_mem hlt))
  · obtain ⟨i, hi, hgi⟩ := List.getElem_of_mem
      (hperm.mem_iff.mpr (stats_max_mem times h))
    rw [← hgi]
    have hile : i ≤ times.length - 1 := by omega
    rcases eq_or_lt_of_le hile with rfl | hilt
    · exact le_refl _
    · exact List.Sorted.rel_get_of_lt hsorted (a := ⟨i, hi⟩)
        (b := ⟨times.length - 1, hlt⟩) hilt

theorem stats_percentile_zero (times : List ℕ) (h : times ≠ []) :
    stats_percentile times 0 = some ((stats_min times : ℕ) : ℚ) := by
  have hsl : (List.insertionSort (· ≤ ·) times).length = times.length :=
    (List.perm_insertionSort (· ≤ ·) times).length_eq
  have hn : 1 ≤ times.length := List.length_pos.mpr h
  rw [stats_percentile, if_neg (by norm_num), copy_and_sort_time_data,
    stats_percentile_from_sorted,
    if_neg (by push_neg; refine ⟨by omega, by norm_num, by norm_num⟩)]
  simp only [zero_div, zero_mul, Int.floor_zero, Int.ceil_zero, Int.toNat_zero,
    eq_self_iff_true, if_true]
  rw [sorted_getD_zero times h]

theorem stats_percentile_hundred (times : List ℕ) (h : times ≠ []) :
    stats_percentile times 100 = some ((stats_max times : ℕ) : ℚ) := by
  have hsl : (List.insertionSort (· ≤ ·) times).length = times.length :=
    (List.perm_insertionSort (· ≤ ·) times).length_eq
  have hn : 1 ≤ times.length := List.length_pos.mpr h
  rw [stats_percentile, if_neg (by norm_num), copy_and_sort_time_data,
    stats_percentile_from_sorted,
    if_neg (by push_neg; refine ⟨by omega, by norm_num, by norm_num⟩)]
  have hidx : ((100 : ℚ) / 100) *
      (((List.insertionSort (· ≤ ·) times).length - 1 : ℕ) : ℚ) =
      (((List.insertionSort (· ≤ ·) times).length - 1 : ℕ) : ℚ) := by
    norm_num
  simp only [hidx, Int.floor_natCast, Int.ceil_natCast, Int.toNat_natCast,
    eq_self_iff_true, if_true]
  rw [hsl, sorted_getD_last times h]

theorem stats_percentile_fifty (times : List ℕ) (h : times ≠ []) :
    stats_percentile times 50 = some (median_spec times) := by
  have hsl : (List.insertionSort (· ≤ ·) times).length = times.length :=
    (List.perm_insertionSort (· ≤ ·) times).length_eq
  have hn : 1 ≤ times.length := List.length_pos.mpr h
  rw [stats_percentile, if_neg (by norm_num), copy_and_sort_time_data,
    stats_percentile_from_sorted,
    if_neg (by push_neg; refine ⟨by omega, by norm_num, by norm_num⟩)]
  rcases Nat.even_or_odd times.length with he | ho
  · -- even length 2k with k ≥ 1
    obtain ⟨k, hk⟩ := he
    have hk1 : 1 ≤ k := by omega
    have hidx : ((50 : ℚ) / 100) *
        (((List.insertionSort (· ≤ ·) times).length - 1 : ℕ) : ℚ) =
        ((2 * k - 1 : ℕ) : ℚ) / 2 := by
      rw [hsl]
      rw [show times.length - 1 = 2 * k - 1 by omega]
      ring
    simp only [hidx]
    have hcast : ((2 * k - 1 : ℕ) : ℚ) = 2 * (k : ℚ) - 1 := by
      push_cast [Nat.cast_sub (by omega : 1 ≤ 2 * k)]
      ring
    have hfloor : Int.floor (((2 * k - 1 : ℕ) : ℚ) / 2) = (k : ℤ) - 1 := by
      rw [hcast, Int.floor_eq_iff]
      constructor
      · push_cast
        have : (1 : ℚ) ≤ (k : ℚ) := by exact_mod_cast hk1
        linarith
      · push_cast
        linarith
    have hceil : Int.ceil (((2 * k - 1 : ℕ) : ℚ) / 2) = (k : ℤ) := by
      rw [hcast, Int.ceil_eq_iff]
      constructor
      · push_cast
        have : (1 : ℚ) ≤ (k : ℚ) := by exact_mod_cast hk1
        linarith
      · push_cast
        have : (1 : ℚ) ≤ (k : ℚ) := by exact_mod_cast hk1
        linarith
    rw [hfloor, hceil]
    have htn1 : ((k : ℤ) - 1).toNat = k - 1 := by omega
    have htn2 : ((k : ℤ)).toNat = k := by omega
    rw [htn1, htn2, if_neg (by omega)]
    have hw : ((2 * k - 1 : ℕ) : ℚ) / 2 - ((k - 1 : ℕ) : ℚ) = 1 / 2 := by
      rw [hcast]
      push_cast [Nat.cast_sub hk1]
      ring
    rw [hw]
    simp only [median_spec]
    rw [if_neg (by omega), show times.length / 2 = k by omega]
    congr 1
    ring
  · -- odd length 2k + 1
    obtain ⟨k, hk⟩ := ho
    have hidx : ((50 : ℚ) / 100) *
        (((List.insertionSort (· ≤ ·) times).length - 1 : ℕ) : ℚ) =
        ((k : ℕ) : ℚ) := by
      rw [hsl]
      rw [show times.length - 1 = 2 * k by omega]
      push_cast
      ring
    simp only [hidx, Int.floor_natCast, Int.ceil_natCast, Int.toNat_natCast,
      eq_self_iff_true, if_true]
    simp only [median_spec]
    rw [if_pos (by omega), show times.length / 2 = k by omega]

/-- C8: for every non-empty sample set the linear-interpolation percentile
satisfies percentile(0) = minimum, percentile(100) = maximum and
percentile(50) = the standard median for both even and odd counts; for
empty input or p outside [0,100] the percentile is NaN (none). -/
theorem C8_percentile (times : List ℕ) (h : times ≠ []) :
    stats_percentile times 0 = some ((stats_min times : ℕ) : ℚ) ∧
    stats_percentile times 100 = some ((stats_max times : ℕ) : ℚ) ∧
    stats_percentile times 50 = some (median_spec times) ∧
    (∀ p : ℚ, p < 0 ∨ 100 < p →
      stats_percentile_from_sorted (copy_and_sort_time_data times) p =
        none) ∧
    (∀ p : ℚ, stats_percentile_from_sorted [] p = none) := by
  refine ⟨stats_percentile_zero times h, stats_percentile_hundred times h,
    stats_percentile_fifty times h, ?_, ?_⟩
  · intro p hp
    rw [stats_percentile_from_sorted, if_pos]
    rcases hp with hp | hp
    · right; left; exact hp
    · right; right; exact hp
  · intro p
    rw [stats_percentile_from_sorted, if_pos]
    left
    rfl

/-- Witness for C8 at the concrete sample list [3, 1, 2]. -/
theorem C8_percentile_witness :
    (([3, 1, 2] : List ℕ) ≠ []) ∧
    (stats_percentile [3, 1, 2] 0 = some ((stats_min [3, 1, 2] : ℕ) : ℚ) ∧
     stats_percentile [3, 1, 2] 100 = some ((stats_max [3, 1, 2] : ℕ) : ℚ) ∧
     stats_percentile [3, 1, 2] 50 = some (median_spec [3, 1, 2]) ∧
     (∀ p : ℚ, p < 0 ∨ 100 < p →
       stats_percentile_from_sorted (copy_and_sort_time_data [3, 1, 2]) p =
         none) ∧
     (∀ p : ℚ, stats_percentile_from_sorted [] p = none)) :=
  ⟨by decide, C8_percentile [3, 1, 2] (by decide)⟩

theorem stats_percentile_isSome (times : List ℕ) (p : ℚ) (h : times ≠ [])
    (hp0 : 0 ≤ p) (hp1 : p ≤ 100) : ∃ v, stats_percentile times p = some v := by
  have hsl : (List.insertionSort (· ≤ ·) times).length = times.length :=
    (List.perm_insertionSort (· ≤ ·) times).length_eq
  have hn : 1 ≤ times.length := List.length_pos.mpr h
  rw [stats_percentile, if_neg (by push_neg; exact ⟨hp0, hp1⟩),
    copy_and_sort_time_data, stats_percentile_from_sorted,
    if_neg (by push_neg; exact ⟨by omega, hp0, hp1⟩)]
  dsimp only
  split
  · exact ⟨_, rfl⟩
  · exact ⟨_, rfl⟩

theorem stats_mad_isSome (times : List ℕ) (h : times ≠ []) :
    ∃ v, stats_mad times = some v := by
  obtain ⟨m, hm⟩ := stats_percentile_isSome times 50 h (by norm_num)
    (by norm_num)
  rw [stats_mad, hm]
  dsimp only
  split
  · exact ⟨_, rfl⟩
  · exact ⟨_, rfl⟩

/-- C6 counterexample: a sample set of exactly 3 values with a
non-degenerate MAD; the claim expects MAD outlier detection to run, but
stats_outliers rejects every method below MIN_SAMPLES_OUTLIER_DETECTION
(= 4) samples, so 3 samples yield the insufficient-samples error. -/
theorem C6_counterexample :
    stats_outliers [1, 2, 4] .mad = .error .insufficient_samples ∧
    MIN_SAMPLES_MAD_OUTLIER ≤ ([1, 2, 4] : List ℕ).length ∧
    STATS_EPSILON < (stats_mad [1, 2, 4]).getD 0 := by
  refine ⟨rfl, by decide, ?_⟩
  have h50 : stats_percentile [1, 2, 4] 50 = some (median_spec [1, 2, 4]) :=
    stats_percentile_fifty [1, 2, 4] (by decide)
  have hmed : median_spec [1, 2, 4] = 2 := by
    norm_num [median_spec, List.insertionSort, List.orderedInsert]
  have hmad : stats_mad [1, 2, 4] = some 1 := by
    rw [stats_mad, h50, hmed]
    norm_num [List.insertionSort, List.orderedInsert]
  rw [hmad]
  norm_num [STATS_EPSILON]

/-- C6 (amended): through the public outlier entry point, MAD-based
detection requires at least MIN_SAMPLES_OUTLIER_DETECTION (= 4) samples
(the spec's 3-sample minimum is only checked inside the unreachable-for-3
inner implementation); with at least 4 samples and MAD above epsilon it
flags exactly the indices whose deviation ratio exceeds the default 2.5
threshold, with fewer than 4 samples it fails with the
insufficient-samples error, and with degenerate MAD it fails with the
invalid-statistics error. -/
theorem C6_mad_outlier_detection (times : List ℕ) :
    (times.length < MIN_SAMPLES_OUTLIER_DETECTION →
      stats_outliers times .mad = .error .insufficient_samples) ∧
    (MIN_SAMPLES_OUTLIER_DETECTION ≤ times.length →
      (STATS_EPSILON < (stats_mad times).getD 0 →
        stats_outliers times .mad =
          .ok ((List.range times.length).filter
            (mad_flagged times OUTLIER_MAD_DEFAULT))) ∧
      ((stats_mad times).getD 0 ≤ STATS_EPSILON →
        stats_outliers times .mad = .error .invalid_statistics)) := by
  constructor
  · intro hlt
    rw [stats_outliers, if_pos hlt]
  · intro hge
    have hne : times ≠ [] := by
      intro hc
      rw [hc] at hge
      simp [MIN_SAMPLES_OUTLIER_DETECTION] at hge
    obtain ⟨p50, hp50⟩ := stats_percentile_isSome times 50 hne (by norm_num)
      (by norm_num)
    obtain ⟨mv, hmv⟩ := stats_mad_isSome times hne
    have hout : stats_outliers times .mad =
        stats_outliers_mad_impl times OUTLIER_MAD_DEFAULT := by
      rw [stats_outliers, if_neg (by omega)]
    have himpl : stats_outliers_mad_impl times OUTLIER_MAD_DEFAULT =
        (if mv ≤ STATS_EPSILON then .error .invalid_statistics
         else .ok ((List.range times.length).filter
           (mad_flagged times OUTLIER_MAD_DEFAULT))) := by
      rw [stats_outliers_mad_impl,
        if_neg (by unfold MIN_SAMPLES_OUTLIER_DETECTION at hge
                   unfold MIN_SAMPLES_MAD_OUTLIER
                   omega),
        hp50, hmv]
      dsimp only
      by_cases hmvEps : mv ≤ STATS_EPSILON
      · rw [if_pos hmvEps, if_pos hmvEps]
      · rw [if_neg hmvEps, if_neg hmvEps]
        rw [if_pos (show (0 : ℚ) < OUTLIER_MAD_DEFAULT by
          norm_num [OUTLIER_MAD_DEFAULT])]
    constructor
    · intro hmad
      rw [hout, himpl, if_neg (by rw [hmv] at hmad; simpa using not_le.mpr hmad)]
    · intro hmad
      rw [hout, himpl, if_pos (by rw [hmv] at hmad; simpa using hmad)]

/-- Witness for C6 at the concrete 4-sample set [0, 0, 0, 4], whose MAD is
0 (degenerate), so detection fails with the invalid-statistics error. -/
theorem C6_mad_outlier_detection_witness :
    (MIN_SAMPLES_OUTLIER_DETECTION ≤ ([0, 0, 0, 4] : List ℕ).length) ∧
    ((stats_mad [0, 0, 0, 4]).getD 0 ≤ STATS_EPSILON) ∧
    stats_outliers [0, 0, 0, 4] .mad = .error .invalid_statistics := by
  have h50 : stats_percentile [0, 0, 0, 4] 50 =
      some (median_spec [0, 0, 0, 4]) :=
    stats_percentile_fifty [0, 0, 0, 4] (by decide)
  have hmed : median_spec [0, 0, 0, 4] = 0 := by
    norm_num [median_spec, List.insertionSort, List.orderedInsert]
  have hmad : stats_mad [0, 0, 0, 4] = some 0 := by
    rw [stats_mad, h50, hmed]
    norm_num [List.insertionSort, List.orderedInsert]
  have hle : (stats_mad [0, 0, 0, 4]).getD 0 ≤ STATS_EPSILON := by
    rw [hmad]
    norm_num [STATS_EPSILON]
  exact ⟨by decide, hle,
    ((C6_mad_outlier_detection [0, 0, 0, 4]).2 (by decide)).2 hle⟩

theorem stats_outliers_ok_shape (times : List ℕ) (method : outlier_method_t)
    (r : List ℕ) (h : stats_outliers times method = .ok r) :
    r = (List.range times.length).filter (outlier_flagged times method) := by
  rw [stats_outliers.eq_def] at h
  split at h
  · cases h
  · split at h
    · split at h
      · simp only [Except.ok.injEq] at h
        exact h.symm
      · cases h
    · rw [stats_outliers_mad_impl] at h
      split at h
      · cases h
      · split at h
        · split at h
          · cases h
          · rw [if_pos (show (0 : ℚ) < OUTLIER_MAD_DEFAULT by
              norm_num [OUTLIER_MAD_DEFAULT])] at h
            simp only [Except.ok.injEq] at h
            exact h.symm
        · cases h

/-- C10: whenever outlier detection succeeds through the Lua entry point
(either method), the returned list is exactly the 1-based image of the
flagged 0-based indices scanned in order, hence strictly increasing, with
every index in [1, n]; it is empty precisely when no index is flagged. -/
theorem C10_outlier_indices (times : List ℕ) (method : outlier_method_t)
    (l : List ℕ) (h : outliers_lua times method = .ok l) :
    l = ((List.range times.length).filter
        (outlier_flagged times method)).map (fun i => i + 1) ∧
    List.Chain' (· < ·) l ∧
    (∀ i ∈ l, 1 ≤ i ∧ i ≤ times.length) ∧
    (l = [] ↔ ∀ i < times.length, outlier_flagged times method i = false) := by
  rw [outliers_lua] at h
  cases hso : stats_outliers times method with
  | error e =>
    rw [hso] at h
    simp only [Except.map] at h
    cases h
  | ok r =>
    rw [hso] at h
    simp only [Except.map, Except.ok.injEq] at h
    have hr := stats_outliers_ok_shape times method r hso
    subst hr
    subst h
    refine ⟨rfl, ?_, ?_, ?_⟩
    · have hp : List.Pairwise (· < ·)
          ((List.range times.length).filter (outlier_flagged times method)) :=
        List.Pairwise.sublist (List.filter_sublist _)
          (List.pairwise_lt_range _)
      have hp2 : List.Pairwise (· < ·)
          (((List.range times.length).filter
            (outlier_flagged times method)).map (fun i => i + 1)) := by
        rw [List.pairwise_map]
        exact hp.imp (fun hab => Nat.add_lt_add_right hab 1)
      exact hp2.chain'
    · intro i hi
      simp only [List.mem_map, List.mem_filter, List.mem_range] at hi
      obtain ⟨j, ⟨hj, _⟩, rfl⟩ := hi
      omega
    · constructor
      · intro hnil i hi
        rw [List.map_eq_nil_iff, List.filter_eq_nil_iff] at hnil
        have := hnil i (List.mem_range.mpr hi)
        simpa using this
      · intro hall
        rw [List.map_eq_nil_iff, List.filter_eq_nil_iff]
        intro a ha
        simpa using hall a (List.mem_range.mp ha)

/-- Witness for C10 at [10, 12, 11, 13, 1000] with the Tukey method: the
quartiles of the sorted data are 11 and 13, so the Tukey fence is
[8, 16] and only the last sample (0-based index 4) is flagged, returned as
the 1-based index 5. -/
theorem C10_outlier_indices_witness :
    outliers_lua [10, 12, 11, 13, 1000] .tukey = Except.ok [5] ∧
    List.Chain' (· < ·) ([5] : List ℕ) ∧
    ∀ i ∈ ([5] : List ℕ), 1 ≤ i ∧ i ≤ ([10, 12, 11, 13, 1000] : List ℕ).length := by
  have hsort : copy_and_sort_time_data [10, 12, 11, 13, 1000] =
      [10, 11, 12, 13, 1000] := by decide
  have h25 : stats_percentile [10, 12, 11, 13, 1000] 25 = some 11 := by
    rw [stats_percentile, if_neg (by norm_num), hsort,
      stats_percentile_from_sorted, if_neg (by norm_num)]
    have hidx : ((25 : ℚ) / 100) *
        ((([10, 11, 12, 13, 1000] : List ℕ).length - 1 : ℕ) : ℚ) = 1 := by
      norm_num
    simp only [hidx, Int.floor_one, Int.ceil_one]
    norm_num
  have h75 : stats_percentile [10, 12, 11, 13, 1000] 75 = some 13 := by
    rw [stats_percentile, if_neg (by norm_num), hsort,
      stats_percentile_from_sorted, if_neg (by norm_num)]
    have hidx : ((75 : ℚ) / 100) *
        ((([10, 11, 12, 13, 1000] : List ℕ).length - 1 : ℕ) : ℚ) = 3 := by
      norm_num
    simp only [hidx]
    rw [show Int.floor (3 : ℚ) = 3 from Int.floor_intCast 3,
      show Int.ceil (3 : ℚ) = 3 from Int.ceil_intCast 3]
    norm_num
    show ((13 : ℕ) : ℚ) = 13
    norm_num
  have hf0 : tukey_flagged [10, 12, 11, 13, 1000] 0 = false := by
    simp only [tukey_flagged, h25, h75, Option.getD_some, List.getD_cons_zero,
      List.getD_cons_succ, Bool.or_eq_false_iff, decide_eq_false_iff_not]
    norm_num [OUTLIER_TUKEY_MULTIPLIER]
  have hf1 : tukey_flagged [10, 12, 11, 13, 1000] 1 = false := by
    simp only [tukey_flagged, h25, h75, Option.getD_some, List.getD_cons_zero,
      List.getD_cons_succ, Bool.or_eq_false_iff, decide_eq_false_iff_not]
    norm_num [OUTLIER_TUKEY_MULTIPLIER]
  have hf2 : tukey_flagged [10, 12, 11, 13, 1000] 2 = false := by
    simp only [tukey_flagged, h25, h75, Option.getD_some, List.getD_cons_zero,
      List.getD_cons_succ, Bool.or_eq_false_iff, decide_eq_false_iff_not]
    norm_num [OUTLIER_TUKEY_MULTIPLIER]
  have hf3 : tukey_flagged [10, 12, 11, 13, 1000] 3 = false := by
    simp only [tukey_flagged, h25, h75, Option.getD_some, List.getD_cons_zero,
      List.getD_cons_succ, Bool.or_eq_false_iff, decide_eq_false_iff_not]
    norm_num [OUTLIER_TUKEY_MULTIPLIER]
  have hf4 : tukey_flagged [10, 12, 11, 13, 1000] 4 = true := by
    simp only [tukey_flagged, h25, h75, Option.getD_some, List.getD_cons_zero,
      List.getD_cons_succ, Bool.or_eq_true, decide_eq_true_eq]
    right
    norm_num [OUTLIER_TUKEY_MULTIPLIER]
  have hso : stats_outliers [10, 12, 11, 13, 1000] .tukey = Except.ok [4] := by
    rw [stats_outliers, if_neg (by decide), h25, h75]
    dsimp only
    rw [show List.range ([10, 12, 11, 13, 1000] : List ℕ).length =
      [0, 1, 2, 3, 4] from rfl]
    simp [hf0, hf1, hf2, hf3, hf4]
  have h : outliers_lua [10, 12, 11, 13, 1000] .tukey = Except.ok [5] := by
    rw [outliers_lua, hso]
    rfl
  exact ⟨h, (C10_outlier_indices _ _ _ h).2.1,
    (C10_outlier_indices _ _ _ h).2.2.1⟩

section

open scoped Classical

theorem cluster_seg_two_left (c0 c1 : skesd_cluster_t) :
    cluster_seg [c0, c1] 0 1 = [c0] := rfl

theorem cluster_seg_two_right (c0 c1 : skesd_cluster_t) :
    cluster_seg [c0, c1] 1 2 = [c1] := rfl

theorem calc_combined_stats_seg_single (clusters : List skesd_cluster_t)
    (start stop : ℕ) (c : skesd_cluster_t)
    (hseg : cluster_seg clusters start stop = [c])
    (hn : 2 ≤ c.count) (hv : 0 ≤ c.variance) :
    calc_combined_stats clusters start stop =
      ⟨c.mean, c.variance, c.count⟩ := by
  rw [calc_combined_stats]
  simp only [hseg, List.map_cons, List.map_nil, List.sum_cons, List.sum_nil,
    add_zero]
  rw [if_neg (show ¬ c.count = 0 by omega)]
  have hc0 : (c.count : ℝ) ≠ 0 := Nat.cast_ne_zero.mpr (by omega)
  have hc1 : ((c.count - 1 : ℕ) : ℝ) ≠ 0 := Nat.cast_ne_zero.mpr (by omega)
  have hmean : c.mean * (c.count : ℝ) / (c.count : ℝ) = c.mean := by
    field_simp
  have h2r : (2 : ℝ) ≤ (c.count : ℝ) := by exact_mod_cast hn
  have hne1 : (c.count : ℝ) - 1 ≠ 0 := by intro hcontra; linarith
  have hveq : (c.variance * ((c.count - 1 : ℕ) : ℝ) +
        c.mean * c.mean * (c.count : ℝ) -
        c.mean * (c.count : ℝ) * (c.mean * (c.count : ℝ)) / (c.count : ℝ)) /
      ((c.count - 1 : ℕ) : ℝ) = c.variance := by
    rw [Nat.cast_sub (show 1 ≤ c.count by omega)]
    push_cast
    field_simp
    ring
  rw [hveq, if_neg (not_lt.mpr hv), hmean]

theorem find_optimal_partition_two (clusters : List skesd_cluster_t)
    (start : ℕ) :
    find_optimal_partition clusters start (start + 2) = start + 1 := by
  rw [find_optimal_partition, if_neg (by omega)]
  rw [show start + 2 - start - 1 = 1 from by omega]
  rw [show List.range' (start + 1) 1 = [start + 1] from rfl]
  simp only [List.foldl_cons, List.foldl_nil]
  dsimp only
  split_ifs <;> rfl

theorem should_merge_two (c0 c1 : skesd_cluster_t)
    (hn0 : 2 ≤ c0.count) (hn1 : 2 ≤ c1.count)
    (hv0 : 0 ≤ c0.variance) (hv1 : 0 ≤ c1.variance) (θ : ℝ) :
    should_merge_partitions [c0, c1] 0 1 2 θ ↔
      calc_cohen_d c0.mean c0.variance c0.count
        c1.mean c1.variance c1.count < θ := by
  rw [should_merge_partitions]
  rw [calc_combined_stats_seg_single [c0, c1] 0 1 c0
      (cluster_seg_two_left c0 c1) hn0 hv0,
    calc_combined_stats_seg_single [c0, c1] 1 2 c1
      (cluster_seg_two_right c0 c1) hn1 hv1]
  dsimp only
  constructor
  · rintro (h | h | h)
    · omega
    · omega
    · exact h
  · intro h
    exact Or.inr (Or.inr h)

theorem assign_range_two (c0 c1 : skesd_cluster_t)
    (h0 : c0.id = 0) (h1 : c1.id = 1) (a : List ℤ) (id : ℤ) :
    assign_range [c0, c1] 0 2 a id = (a.set 0 id).set 1 id := by
  rw [assign_range]
  rw [show List.range' 0 (2 - 0) = [0, 1] from rfl]
  simp only [List.foldl_cons, List.foldl_nil, List.get?_cons_zero,
    List.get?_cons_succ]
  rw [h0, h1]

theorem assign_range_two_left (c0 c1 : skesd_cluster_t) (a : List ℤ)
    (id : ℤ) :
    assign_range [c0, c1] 0 1 a id = a.set c0.id id := by
  rw [assign_range]
  rw [show List.range' 0 (1 - 0) = [0] from rfl]
  simp only [List.foldl_cons, List.foldl_nil, List.get?_cons_zero]

theorem assign_range_two_right (c0 c1 : skesd_cluster_t) (a : List ℤ)
    (id : ℤ) :
    assign_range [c0, c1] 1 2 a id = a.set c1.id id := by
  rw [assign_range]
  rw [show List.range' 1 (2 - 1) = [1] from rfl]
  simp only [List.foldl_cons, List.foldl_nil, List.get?_cons_succ,
    List.get?_cons_zero]

end

section

open scoped Classical

theorem skesd_two_clusters (c0 c1 : skesd_cluster_t) (θ : ℝ)
    (h0 : c0.id = 0) (h1 : c1.id = 1)
    (hn0 : 2 ≤ c0.count) (hn1 : 2 ≤ c1.count)
    (hv0 : 0 ≤ c0.variance) (hv1 : 0 ≤ c1.variance) :
    scott_knott_esd_recursive [c0, c1] 0 2 [-1, -1] 0 θ =
      if calc_cohen_d c0.mean c0.variance c0.count
          c1.mean c1.variance c1.count < θ
      then ([0, 0], 1) else ([0, 1], 2) := by
  have hsplit : find_optimal_partition [c0, c1] 0 2 = 1 := by
    have h := find_optimal_partition_two [c0, c1] 0
    simpa using h
  rw [scott_knott_esd_recursive]
  rw [if_neg (by omega : ¬ ((2 : ℕ) - 0 ≤ 1))]
  simp only [hsplit]
  by_cases hm : calc_cohen_d c0.mean c0.variance c0.count
      c1.mean c1.variance c1.count < θ
  · rw [if_pos ((should_merge_two c0 c1 hn0 hn1 hv0 hv1 θ).mpr hm),
      if_pos hm, assign_range_two c0 c1 h0 h1]
    rfl
  · rw [if_neg (fun hc => hm ((should_merge_two c0 c1 hn0 hn1 hv0 hv1 θ).mp hc)),
      if_neg hm]
    have hleft : scott_knott_esd_recursive [c0, c1] 0 1 [-1, -1] 0 θ =
        ([0, -1], 1) := by
      rw [scott_knott_esd_recursive, if_pos (by omega : (1 : ℕ) - 0 ≤ 1),
        assign_range_two_left, h0]
      rfl
    have hright : scott_knott_esd_recursive [c0, c1] 1 2 [0, -1] 1 θ =
        ([0, 1], 2) := by
      rw [scott_knott_esd_recursive, if_pos (by omega : (2 : ℕ) - 1 ≤ 1),
        assign_range_two_right, h1]
      rfl
    simp only [hleft]
    exact hright

theorem cohen_d_small_pair :
    calc_cohen_d 1 (1 / 100) 30 (101 / 100) (1 / 100) 30 = 1 / 10 := by
  rw [calc_cohen_d]
  have harg : ((((30 : ℕ) - 1 : ℕ) : ℝ) * (1 / 100) +
      (((30 : ℕ) - 1 : ℕ) : ℝ) * (1 / 100)) /
      (((30 : ℕ) + (30 : ℕ) - 2 : ℕ) : ℝ) = (1 / 10) ^ 2 := by
    norm_num
  rw [harg, Real.sqrt_sq (by norm_num : (0 : ℝ) ≤ 1 / 10)]
  rw [if_neg (by norm_num : ¬ ((1 : ℝ) / 10 = 0))]
  rw [show |(1 : ℝ) - 101 / 100| = 1 / 100 by
    rw [abs_sub_comm, abs_of_nonneg (by norm_num : (0 : ℝ) ≤ 101 / 100 - 1)]
    norm_num]
  norm_num

theorem cohen_d_large_pair :
    calc_cohen_d 1 (1 / 100) 30 10 (1 / 100) 30 = 90 := by
  rw [calc_cohen_d]
  have harg : ((((30 : ℕ) - 1 : ℕ) : ℝ) * (1 / 100) +
      (((30 : ℕ) - 1 : ℕ) : ℝ) * (1 / 100)) /
      (((30 : ℕ) + (30 : ℕ) - 2 : ℕ) : ℝ) = (1 / 10) ^ 2 := by
    norm_num
  rw [harg, Real.sqrt_sq (by norm_num : (0 : ℝ) ≤ 1 / 10)]
  rw [if_neg (by norm_num : ¬ ((1 : ℝ) / 10 = 0))]
  rw [show |(1 : ℝ) - 10| = 9 by
    rw [abs_sub_comm, abs_of_nonneg (by norm_num : (0 : ℝ) ≤ 10 - 1)]
    norm_num]
  norm_num

end

section

open scoped Classical

/-- C7: on exactly two valid groups (ids 0 and 1 after the sort by mean,
counts at least 2, nonnegative variances), Scott-Knott ESD merges them into
a single cluster exactly when the pooled Cohen effect size between the two
sides is below the threshold, and otherwise yields two clusters, each
holding its own group; in particular the groups (mean 1, variance 1/100,
n 30) and (mean 101/100, variance 1/100, n 30) collapse to one cluster at
the default threshold 1/2, while (mean 1, variance 1/100, n 30) and
(mean 10, variance 1/100, n 30) split into two. -/
theorem C7_scott_knott_two_groups :
    (∀ (c0 c1 : skesd_cluster_t) (θ : ℝ), c0.id = 0 → c1.id = 1 →
      2 ≤ c0.count → 2 ≤ c1.count → 0 ≤ c0.variance → 0 ≤ c1.variance →
      scott_knott_esd_recursive [c0, c1] 0 2 [-1, -1] 0 θ =
        if calc_cohen_d c0.mean c0.variance c0.count
            c1.mean c1.variance c1.count < θ
        then ([0, 0], 1) else ([0, 1], 2)) ∧
    scott_knott_esd_recursive
      [⟨0, 30, 1, 1 / 100⟩, ⟨1, 30, 101 / 100, 1 / 100⟩] 0 2 [-1, -1] 0
      COHEN_D_MEDIUM = ([0, 0], 1) ∧
    scott_knott_esd_recursive
      [⟨0, 30, 1, 1 / 100⟩, ⟨1, 30, 10, 1 / 100⟩] 0 2 [-1, -1] 0
      COHEN_D_MEDIUM = ([0, 1], 2) := by
  refine ⟨fun c0 c1 θ h0 h1 hn0 hn1 hv0 hv1 =>
    skesd_two_clusters c0 c1 θ h0 h1 hn0 hn1 hv0 hv1, ?_, ?_⟩
  · rw [skesd_two_clusters ⟨0, 30, 1, 1 / 100⟩ ⟨1, 30, 101 / 100, 1 / 100⟩
      COHEN_D_MEDIUM rfl rfl (by norm_num) (by norm_num) (by norm_num)
      (by norm_num)]
    dsimp only
    rw [cohen_d_small_pair,
      if_pos (by norm_num [COHEN_D_MEDIUM] : (1 : ℝ) / 10 < COHEN_D_MEDIUM)]
  · rw [skesd_two_clusters ⟨0, 30, 1, 1 / 100⟩ ⟨1, 30, 10, 1 / 100⟩
      COHEN_D_MEDIUM rfl rfl (by norm_num) (by norm_num) (by norm_num)
      (by norm_num)]
    dsimp only
    rw [cohen_d_large_pair,
      if_neg (by norm_num [COHEN_D_MEDIUM] : ¬ ((90 : ℝ) < COHEN_D_MEDIUM))]

/-- Witness for C7: the general two-group statement applied at the two
concrete separated groups (mean 1 and mean 10, variance 1/100, n 30 each)
with every hypothesis discharged, yielding the two-cluster outcome. -/
theorem C7_scott_knott_two_groups_witness :
    (2 ≤ (⟨0, 30, (1 : ℝ), 1 / 100⟩ : skesd_cluster_t).count) ∧
    (0 ≤ (⟨0, 30, (1 : ℝ), 1 / 100⟩ : skesd_cluster_t).variance) ∧
    scott_knott_esd_recursive
      [⟨0, 30, 1, 1 / 100⟩, ⟨1, 30, 10, 1 / 100⟩] 0 2 [-1, -1] 0
      COHEN_D_MEDIUM = ([0, 1], 2) := by
  refine ⟨by norm_num, by norm_num, ?_⟩
  have h := C7_scott_knott_two_groups.1 ⟨0, 30, 1, 1 / 100⟩
    ⟨1, 30, 10, 1 / 100⟩ COHEN_D_MEDIUM rfl rfl (by norm_num) (by norm_num)
    (by norm_num) (by norm_num)
  rw [h]
  dsimp only
  rw [cohen_d_large_pair,
    if_neg (by norm_num [COHEN_D_MEDIUM] : ¬ ((90 : ℝ) < COHEN_D_MEDIUM))]

end

theorem erf_c99_neg (x : ℝ) : erf_c99 (-x) = - erf_c99 x := by
  rw [erf_c99, erf_c99]
  have h1 : (∫ t in (0:ℝ)..(-x), Real.exp (-(t ^ 2))) =
      ∫ t in (0:ℝ)..(-x), Real.exp (-((-t) ^ 2)) := by
    simp only [neg_sq]
  have h : (∫ t in (0:ℝ)..(-x), Real.exp (-(t ^ 2))) =
      - ∫ t in (0:ℝ)..x, Real.exp (-(t ^ 2)) := by
    rw [h1, intervalIntegral.integral_comp_neg (fun t => Real.exp (-(t ^ 2)))]
    simp only [neg_neg, neg_zero]
    exact intervalIntegral.integral_symm 0 x
  rw [h]
  ring

/-- C9: for every t and every df > 0, the Student-t CDF satisfies the
exact symmetry student_t_cdf t df + student_t_cdf (-t) df = 1, across all
of its internal regimes: the large-|t| saturation, the Cauchy closed form
near df = 1, the normal approximation for df > 1000, and the
incomplete-beta path. -/
theorem C9_student_t_symmetry (t df : ℝ) (hdf : 0 < df) :
    student_t_cdf t df + student_t_cdf (-t) df = 1 := by
  rw [student_t_cdf, student_t_cdf]
  rw [if_neg (not_le.mpr hdf), if_neg (not_le.mpr hdf)]
  by_cases hbig : 100 < |t|
  · rw [if_pos hbig, if_pos (by rwa [abs_neg] : 100 < |-t|)]
    rcases lt_trichotomy t 0 with hlt | heq | hgt
    · rw [if_pos hlt, if_neg (by linarith : ¬ (-t < 0))]
      norm_num
    · rw [heq, abs_zero] at hbig
      linarith
    · rw [if_neg (by linarith : ¬ (t < 0)), if_pos (by linarith : -t < 0)]
      norm_num
  · rw [if_neg hbig, if_neg (by rwa [abs_neg] : ¬ (100 < |-t|))]
    by_cases hc : |df - 1| < 1e-15
    · rw [if_pos hc, if_pos hc]
      rw [Real.arctan_neg]
      ring
    · rw [if_neg hc, if_neg hc]
      by_cases hbig2 : 1000 < df
      · rw [if_pos hbig2, if_pos hbig2]
        rw [show (-t) / Real.sqrt 2 = -(t / Real.sqrt 2) by ring, erf_c99_neg]
        ring
      · rw [if_neg hbig2, if_neg hbig2]
        simp only [neg_mul_neg]
        rcases lt_trichotomy t 0 with hlt | heq | hgt
        · rw [if_neg (not_le.mpr hlt), if_pos (by linarith : (0:ℝ) ≤ -t)]
          ring
        · subst heq
          simp only [neg_zero, zero_mul]
          simp only [add_zero, zero_div]
          rw [if_pos hdf]
          rw [show betai 0.5 (df / 2) 0 = 0 by
            rw [betai, if_neg (by norm_num), if_pos rfl]]
          norm_num
        · rw [if_pos (le_of_lt hgt),
            if_neg (not_le.mpr (by linarith : -t < 0))]
          ring

/-- Witness for C9 at t = 1, df = 2: the two CDF values sum to exactly 1. -/
theorem C9_student_t_symmetry_witness :
    (0 : ℝ) < 2 ∧ student_t_cdf 1 2 + student_t_cdf (-1) 2 = 1 :=
  ⟨by norm_num, C9_student_t_symmetry 1 2 (by norm_num)⟩

theorem lua_pushinteger_u64_small (v : ℕ) (h : v < 2 ^ 63) :
    lua_pushinteger_u64 v = (v : ℤ) := by
  rw [lua_pushinteger_u64, Int.bmod_def]
  have hlt : (v : ℤ) < ((2 ^ 64 : ℕ) : ℤ) := by
    exact_mod_cast lt_trans h (by norm_num)
  have hmod : (v : ℤ) % ((2 ^ 64 : ℕ) : ℤ) = (v : ℤ) :=
    Int.emod_eq_of_lt (by positivity) hlt
  rw [hmod, if_pos]
  have : (((2 ^ 64 : ℕ) : ℤ) + 1) / 2 = 2 ^ 63 := by norm_num
  rw [this]
  exact_mod_cast h

/-- C5 counterexample: a freshly created set has base_kb = 0, whose dump
also records base_kb = 0, and restore_lua rejects any record with
base_kb <= 0, so the dump of a fresh set cannot be restored at all. -/
theorem C5_counterexample :
    restore_lua (dump_lua (new_measure_samples "x" 1 0 95 5)) =
      .error "invalid field base_kb: must be > 0" := by
  rfl

theorem gc_step_norm_idem (gc : ℤ) :
    (if (if gc < 0 then (-1 : ℤ) else gc) < 0 then (-1 : ℤ)
     else if gc < 0 then (-1 : ℤ) else gc) =
      if gc < 0 then (-1 : ℤ) else gc := by
  split_ifs <;> omega

theorem dump_name_roundtrip (n : String) :
    ((if n = "" then none else some n).getD "") = n := by
  by_cases h : n = ""
  · rw [if_pos h, h]
    rfl
  · rw [if_neg h]
    rfl

theorem zip_replay (l : List (ℕ × ℕ × ℕ))
    (hb : ∀ x ∈ l, x.1 < 2 ^ 63 ∧ x.2.1 < 2 ^ 63 ∧ x.2.2 < 2 ^ 63) :
    List.zipWith (fun t (ba : ℤ × ℤ) => (t.toNat, ba.1.toNat, ba.2.toNat))
      ((entriesOf l).map (fun d => lua_pushinteger_u64 d.time_ns))
      (List.zip
        ((entriesOf l).map (fun d => lua_pushinteger_u64 d.before_kb))
        ((entriesOf l).map (fun d => lua_pushinteger_u64 d.after_kb))) =
      l := by
  induction l with
  | nil => rfl
  | cons x xs ih =>
    obtain ⟨h1, h2, h3⟩ := hb x (by simp)
    rw [show entriesOf (x :: xs) = entryOf x :: entriesOf xs from rfl]
    simp only [List.map_cons, List.zip_cons_cons, List.zipWith_cons_cons]
    dsimp only [entryOf]
    rw [lua_pushinteger_u64_small _ h1, lua_pushinteger_u64_small _ h2,
      lua_pushinteger_u64_small _ h3]
    congr 1
    exact ih (fun y hy => hb y (by simp [hy]))

theorem restore_lua_of_valid (rec : dump_record)
    (h1 : ¬ rec.capacity ≤ 0)
    (h2 : ¬ (rec.count < 0 ∨ rec.capacity.toNat < rec.count.toNat))
    (h3 : ¬ (rec.cl ≤ 0 ∨ 100 < rec.cl))
    (h4 : ¬ (rec.rciw ≤ 0 ∨ 100 < rec.rciw))
    (h5 : ¬ rec.base_kb ≤ 0)
    (h6 : rec.time_ns.length = rec.count.toNat)
    (h7 : rec.before_kb.length = rec.count.toNat)
    (h8 : rec.after_kb.length = rec.count.toNat)
    (h9 : rec.time_ns.any (fun v => decide (v < 0)) = false)
    (h10 : rec.before_kb.any (fun v => decide (v < 0)) = false)
    (h11 : rec.after_kb.any (fun v => decide (v < 0)) = false) :
    restore_lua rec = .ok (appendAll
      { new_measure_samples (rec.name.getD "") rec.capacity.toNat rec.gc_step
          rec.cl rec.rciw with
        count := 0
        base_kb := rec.base_kb.toNat
        min := UINT64_MAX }
      (List.zipWith (fun t (ba : ℤ × ℤ) => (t.toNat, ba.1.toNat, ba.2.toNat))
        rec.time_ns (List.zip rec.before_kb rec.after_kb))) := by
  rw [restore_lua, if_neg h1, if_neg h2, if_neg h3, if_neg h4, if_neg h5,
    if_neg (by simp [h6]), if_neg (by simp [h7]), if_neg (by simp [h8]),
    if_neg (by simp [h9]), if_neg (by simp [h10]), if_neg (by simp [h11])]

/-- C5 (amended): the dump/restore round-trip holds for sample sets built
through the intended lifecycle (create, clear, preprocess with a positive
baseline, then append), provided every numeric field fits in the signed
64-bit range lua_pushinteger converts to: restore_lua on the dump returns
exactly the original set. For other states the round-trip fails: a fresh
set (base_kb = 0) is rejected by the base_kb validation, so the spec's
claim for every SampleSet is too strong. -/
theorem C5_dump_restore_roundtrip (name : String) (cap : ℕ) (gc : ℤ)
    (cl rciw : ℚ) (k : ℕ) (l : List (ℕ × ℕ × ℕ))
    (hname : (name.toList.take 255).asString = name)
    (hcap1 : 1 ≤ cap) (hcap2 : cap < 2 ^ 63)
    (hk1 : 1 ≤ k) (hk2 : k < 2 ^ 63)
    (hcl1 : 0 < cl) (hcl2 : cl ≤ 100)
    (hrc1 : 0 < rciw) (hrc2 : rciw ≤ 100)
    (hlen : l.length ≤ cap)
    (hb : ∀ x ∈ l, x.1 < 2 ^ 63 ∧ x.2.1 < 2 ^ 63 ∧ x.2.2 < 2 ^ 63) :
    restore_lua (dump_lua (appendAll
      (measure_samples_preprocess
        (measure_samples_clear
          (new_measure_samples name cap gc cl rciw)) k) l)) =
      .ok (appendAll
        (measure_samples_preprocess
          (measure_samples_clear
            (new_measure_samples name cap gc cl rciw)) k) l) := by
  set S := appendAll
    (measure_samples_preprocess
      (measure_samples_clear
        (new_measure_samples name cap gc cl rciw)) k) l with hS
  have hconsb : Consistent (measure_samples_preprocess
      (measure_samples_clear (new_measure_samples name cap gc cl rciw)) k) :=
    clear_consistent (new_measure_samples name cap gc cl rciw)
  have hbc : (measure_samples_preprocess
      (measure_samples_clear (new_measure_samples name cap gc cl rciw))
      k).count = 0 := rfl
  have hbd : (measure_samples_preprocess
      (measure_samples_clear (new_measure_samples name cap gc cl rciw))
      k).data = [] := rfl
  have hbcap : (measure_samples_preprocess
      (measure_samples_clear (new_measure_samples name cap gc cl rciw))
      k).capacity = cap := rfl
  have hbn : (measure_samples_preprocess
      (measure_samples_clear (new_measure_samples name cap gc cl rciw))
      k).name = (name.toList.take 255).asString := by
    simp [measure_samples_preprocess, measure_samples_clear,
      new_measure_samples]
  obtain ⟨hsc, hdata, hcount, hcapEq, hnameEq, hclEq, hrciwEq, hgcEq, hbkEq⟩ :=
    appendAll_consistent l _ hconsb
      (by rw [hbc, hbcap, Nat.zero_add]; exact hlen)
  have hdata' : S.data = entriesOf l := by
    rw [hS, hdata, hbd, List.nil_append]
  have hcount' : S.count = l.length := by
    rw [hS, hcount, hbc, Nat.zero_add]
  have hcap' : S.capacity = cap := hcapEq
  have hname' : S.name = name := (hnameEq.trans hbn).trans hname
  have hcl' : S.cl = cl := hclEq
  have hrciw' : S.rciw = rciw := hrciwEq
  have hgc' : S.gc_step = (if gc < 0 then -1 else gc) := hgcEq
  have hbk' : S.base_kb = k := hbkEq
  have hdcap : (dump_lua S).capacity = (cap : ℤ) := by
    rw [dump_lua]
    dsimp only
    rw [hcap', lua_pushinteger_u64_small cap hcap2]
  have hdcount : (dump_lua S).count = (l.length : ℤ) := by
    rw [dump_lua]
    dsimp only
    rw [hcount',
      lua_pushinteger_u64_small l.length (lt_of_le_of_lt hlen hcap2)]
  have hdgc : (dump_lua S).gc_step = (if gc < 0 then -1 else gc) := by
    rw [dump_lua]
    dsimp only
    rw [hgc']
  have hdcl : (dump_lua S).cl = cl := by
    rw [dump_lua]
    dsimp only
    rw [hcl']
  have hdrciw : (dump_lua S).rciw = rciw := by
    rw [dump_lua]
    dsimp only
    rw [hrciw']
  have hdbk : (dump_lua S).base_kb = (k : ℤ) := by
    rw [dump_lua]
    dsimp only
    rw [hbk', lua_pushinteger_u64_small k hk2]
  have hdname : (dump_lua S).name =
      (if name = "" then none else some name) := by
    rw [dump_lua]
    dsimp only
    rw [hname']
  have hdtime : (dump_lua S).time_ns =
      (entriesOf l).map (fun d => lua_pushinteger_u64 d.time_ns) := by
    rw [dump_lua]
    dsimp only
    rw [hdata']
  have hdbefore : (dump_lua S).before_kb =
      (entriesOf l).map (fun d => lua_pushinteger_u64 d.before_kb) := by
    rw [dump_lua]
    dsimp only
    rw [hdata']
  have hdafter : (dump_lua S).after_kb =
      (entriesOf l).map (fun d => lua_pushinteger_u64 d.after_kb) := by
    rw [dump_lua]
    dsimp only
    rw [hdata']
  have hanyt : ((entriesOf l).map
      (fun d => lua_pushinteger_u64 d.time_ns)).any
      (fun v => decide (v < 0)) = false := by
    rw [List.any_eq_false]
    rintro v hv
    simp only [entriesOf, List.map_map, List.mem_map,
      Function.comp_def] at hv
    obtain ⟨x, hx, rfl⟩ := hv
    dsimp only [entryOf]
    rw [lua_pushinteger_u64_small _ (hb x hx).1]
    simp
  have hanyb : ((entriesOf l).map
      (fun d => lua_pushinteger_u64 d.before_kb)).any
      (fun v => decide (v < 0)) = false := by
    rw [List.any_eq_false]
    rintro v hv
    simp only [entriesOf, List.map_map, List.mem_map,
      Function.comp_def] at hv
    obtain ⟨x, hx, rfl⟩ := hv
    dsimp only [entryOf]
    rw [lua_pushinteger_u64_small _ (hb x hx).2.1]
    simp
  have hanya : ((entriesOf l).map
      (fun d => lua_pushinteger_u64 d.after_kb)).any
      (fun v => decide (v < 0)) = false := by
    rw [List.any_eq_false]
    rintro v hv
    simp only [entriesOf, List.map_map, List.mem_map,
      Function.comp_def] at hv
    obtain ⟨x, hx, rfl⟩ := hv
    dsimp only [entryOf]
    rw [lua_pushinteger_u64_small _ (hb x hx).2.2]
    simp
  rw [restore_lua_of_valid (dump_lua S)
    (by rw [hdcap]
        exact not_le.mpr (Int.natCast_pos.mpr
          (lt_of_lt_of_le Nat.zero_lt_one hcap1)))
    (by rw [hdcap, hdcount]
        push_neg
        refine ⟨Int.natCast_nonneg _, ?_⟩
        simpa using hlen)
    (by rw [hdcl]; push_neg; exact ⟨hcl1, hcl2⟩)
    (by rw [hdrciw]; push_neg; exact ⟨hrc1, hrc2⟩)
    (by rw [hdbk]
        exact not_le.mpr (Int.natCast_pos.mpr
          (lt_of_lt_of_le Nat.zero_lt_one hk1)))
    (by rw [hdtime, hdcount]; simp [entriesOf])
    (by rw [hdbefore, hdcount]; simp [entriesOf])
    (by rw [hdafter, hdcount]; simp [entriesOf])
    (by rw [hdtime]; exact hanyt)
    (by rw [hdbefore]; exact hanyb)
    (by rw [hdafter]; exact hanya)]
  rw [hdname, dump_name_roundtrip, hdcap, hdgc, hdcl, hdrciw, hdbk,
    hdtime, hdbefore, hdafter, zip_replay l hb]
  have hs0 : ({ new_measure_samples name ((cap : ℤ)).toNat
       (if gc < 0 then -1 else gc) cl rciw with
       count := 0
       base_kb := ((k : ℤ)).toNat
       min := UINT64_MAX } : measure_samples_t) =
      measure_samples_preprocess
        (measure_samples_clear
          (new_measure_samples name cap gc cl rciw)) k := by
    simp only [new_measure_samples, measure_samples_clear,
      measure_samples_preprocess]
    simp [measure_samples_t.mk.injEq, gc_step_norm_idem gc]
  rw [hs0, hS]

/-- Witness for C5: a lifecycle-built set with name "x", capacity 4,
baseline 7 kB and one appended sample survives the dump/restore round-trip
unchanged. -/
theorem C5_dump_restore_roundtrip_witness :
    (("x".toList.take 255).asString = "x") ∧ 1 ≤ 4 ∧ (0 : ℚ) < 95 ∧
    restore_lua (dump_lua (appendAll
      (measure_samples_preprocess
        (measure_samples_clear (new_measure_samples "x" 4 0 95 5)) 7)
      [(5, 1, 3)])) =
      .ok (appendAll
        (measure_samples_preprocess
          (measure_samples_clear (new_measure_samples "x" 4 0 95 5)) 7)
        [(5, 1, 3)]) := by
  refine ⟨rfl, by omega, by norm_num, ?_⟩
  exact C5_dump_restore_roundtrip "x" 4 0 95 5 7 [(5, 1, 3)] rfl
    (by omega) (by omega) (by omega) (by omega)
    (by norm_num) (by norm_num) (by norm_num) (by norm_num)
    (by decide)
    (by intro x hx
        simp only [List.mem_singleton] at hx
        subst hx
        refine ⟨by decide, by decide, by decide⟩)
